import Mathlib

/-!
Verification of the fcidr repository: a set algebra over the IPv4 address
space represented as a binary trie of CIDR blocks.

The Rust source is embedded shallowly:
* `Cidr` (src/cidr.rs) becomes a structure of two `Nat` fields; the u32
  network address is a `Nat` below `2 ^ 32` and the u8 prefix a `Nat`
  below `256`.  Octet-level loops of the source are rendered as explicit
  per-octet case splits (octet `j` of a u32 is `n / 2 ^ (8 * (3 - j)) % 256`).
  The Rust field and method name `prefix` is a Lean keyword, so the field is
  called `pfx` here; everything else keeps the source naming.
* `CidrNode` / `Inclusion` (src/fcidr.rs) become a single inductive: the
  pure labels `Excluded` / `Included` are `leaf _ false` / `leaf _ true`
  and `Inclusion::Subnets` is the `subnets` constructor.
* Recursive procedures whose recursion is not structural
  (`binary_set_operation`, the worklist loop of `Fcidr::new`) take explicit
  fuel and return `Option`; `none` covers both a `.unwrap()` panic and fuel
  exhaustion, and the safety theorems show the result is `some` on every
  reachable state with fuel 33 (the trie is at most 33 levels deep).
-/

/-- Errors surfaced by the core (src/error.rs).  `InvalidPfx` embeds the
source's `InvalidPrefix` variant (renamed because `prefix` is a Lean
keyword). -/
inductive Error where
  | InvalidNetwork (msg : String)
  | InvalidPfx (msg : String)
  | Parse (msg : String)
deriving DecidableEq

/-- An IPv4 CIDR block (src/cidr.rs): a u32 network address (as a `Nat`)
and a u8 prefix length `pfx` (the source's `prefix`). -/
structure Cidr where
  network : Nat
  pfx : Nat
deriving DecidableEq

/-- Octet `i` (0 = most significant) of the u32 value `n`, as produced by
`Ipv4Addr::octets` in network byte order. -/
def octet (n i : Nat) : Nat := n / 2 ^ (8 * (3 - i)) % 256

/-- The u8 expression `o << offset >> offset` from `Cidr::new`: keep the low
`8 - offset` bits of the octet `o`. -/
def maskOctet (o offset : Nat) : Nat := ((o <<< offset) % 256) >>> offset

/-- Octet `j` fails the host-bits check of `Cidr::new`.  The source iterates
`octets().iter().skip(prefix / 8).enumerate()`: octets before `prefix / 8`
are skipped, the first remaining octet (enumerate index 0) is masked by
`prefix % 8`, later octets must be zero outright. -/
def octetBad (network pfx j : Nat) : Bool :=
  if j < pfx / 8 then false
  else if j = pfx / 8 then maskOctet (octet network j) (pfx % 8) ≠ 0
  else octet network j ≠ 0

/-- The `any` over the four octets in `Cidr::new`'s host-bits check. -/
def invalidNetworkCheck (network pfx : Nat) : Bool :=
  octetBad network pfx 0 || octetBad network pfx 1 ||
    octetBad network pfx 2 || octetBad network pfx 3

/-- `Cidr::new` (src/cidr.rs): reject a prefix above 32, then reject a
network with host bits set after the first `pfx` bits, otherwise accept. -/
def Cidr.new (network pfx : Nat) : Except Error Cidr :=
  if pfx > 32 then
    Except.error (Error.InvalidPfx "network prefix must be 32 or less")
  else if invalidNetworkCheck network pfx then
    Except.error (Error.InvalidNetwork "network address must be clear after the first bits")
  else
    Except.ok ⟨network, pfx⟩

/-- `Cidr::default`: `0.0.0.0/0`. -/
def Cidr.default : Cidr := ⟨0, 0⟩

/-- `Cidr::first`: the network address itself. -/
def Cidr.first (c : Cidr) : Nat := c.network

/-- The u8 expression `u8::MAX << offset >> offset` OR-ed into the boundary
octet by `Cidr::last`. -/
def lastOctet (o offset : Nat) : Nat := o ||| (((255 <<< offset) % 256) >>> offset)

/-- Octet `j` of `Cidr::last`'s result.  The source mutates the octet array
in place, skipping the first `prefix / 8` octets, OR-ing a low-ones mask
into the first remaining octet and setting the later ones to `u8::MAX`. -/
def lastOctetVal (network pfx j : Nat) : Nat :=
  if j < pfx / 8 then octet network j
  else if j = pfx / 8 then lastOctet (octet network j) (pfx % 8)
  else 255

/-- `Cidr::last` (src/cidr.rs): the last address of the block, reassembled
from the four octets. -/
def Cidr.last (c : Cidr) : Nat :=
  lastOctetVal c.network c.pfx 0 * 2 ^ 24 + lastOctetVal c.network c.pfx 1 * 2 ^ 16 +
    lastOctetVal c.network c.pfx 2 * 2 ^ 8 + lastOctetVal c.network c.pfx 3

/-- `Cidr::mid` (src/cidr.rs): the first address of the right child. -/
def Cidr.mid (c : Cidr) : Nat :=
  if c.pfx = 32 then c.network else c.network ||| (1 <<< (32 - c.pfx - 1))

/-- `Cidr::contains` (src/cidr.rs), at the `Cidr` argument instantiation:
`other.first >= self.first && other.last <= self.last`. -/
def Cidr.contains (c other : Cidr) : Bool :=
  decide (Cidr.first other ≥ Cidr.first c) && decide (Cidr.last other ≤ Cidr.last c)

/-- `Cidr::parent` (src/cidr.rs). -/
def Cidr.parent (c : Cidr) : Option Cidr :=
  match c.pfx with
  | 0 => none
  | 1 => some Cidr.default
  | _ =>
    let p2 := c.pfx - 1
    let shift := 32 - p2
    some ⟨c.network >>> shift <<< shift, p2⟩

/-- `Cidr::left_subnet` (src/cidr.rs). -/
def Cidr.left_subnet (c : Cidr) : Option Cidr :=
  if c.pfx = 32 then none else some ⟨c.network, c.pfx + 1⟩

/-- `Cidr::right_subnet` (src/cidr.rs). -/
def Cidr.right_subnet (c : Cidr) : Option Cidr :=
  if c.pfx = 32 then none
  else
    let p2 := c.pfx + 1
    let shift := 32 - p2
    some ⟨((c.network >>> shift) ||| 1) <<< shift, p2⟩

/-- The `From<Ipv4Addr> for Cidr` conversion (src/cidr.rs): `new(a, 32)`,
whose `.expect` is modelled by `Option`. -/
def Cidr.fromIpv4 (a : Nat) : Option Cidr := (Cidr.new a 32).toOption

/-- A `Cidr` value that `Cidr::new` accepts: u32 network, prefix at most 32,
all bits below position `32 - pfx` clear. -/
def validCidr (c : Cidr) : Prop :=
  c.network < 2 ^ 32 ∧ c.pfx ≤ 32 ∧ c.network % 2 ^ (32 - c.pfx) = 0

instance (c : Cidr) : Decidable (validCidr c) := by
  unfold validCidr; infer_instance

/-- Address `a` lies in the block of `c` (the range `[first, last]`). -/
def inBlock (c : Cidr) (a : Nat) : Prop :=
  c.network ≤ a ∧ a < c.network + 2 ^ (32 - c.pfx)

instance (c : Cidr) (a : Nat) : Decidable (inBlock c a) := by
  unfold inBlock; infer_instance

/-! ### Arithmetic bridge lemmas -/

theorem lor_eq_add_of_aligned {k : Nat} (a b : Nat) (ha : a % 2 ^ k = 0) (hb : b < 2 ^ k) :
    a ||| b = a + b := by
  obtain ⟨q, hq⟩ : 2 ^ k ∣ a := Nat.dvd_of_mod_eq_zero ha
  subst hq
  apply Nat.eq_of_testBit_eq
  intro i
  rw [Nat.testBit_lor]
  rcases Nat.lt_or_ge i k with hi | hi
  · have hpow : (2 : Nat) ^ k = 2 ^ i * 2 ^ (k - i) := by
      rw [← pow_add]; congr 1; omega
    have hsplit : (2 : Nat) ^ (k - i) = 2 * 2 ^ (k - i - 1) := by
      rw [← pow_succ']; congr 1; omega
    have h1 : Nat.testBit (2 ^ k * q) i = false := by
      rw [Nat.testBit_to_div_mod, hpow]
      have : 2 ^ i * 2 ^ (k - i) * q / 2 ^ i = 2 ^ (k - i) * q := by
        rw [Nat.mul_assoc, Nat.mul_div_cancel_left _ (Nat.pos_pow_of_pos i (by norm_num))]
      rw [this, hsplit]
      simp [Nat.mul_assoc, Nat.mul_mod_right]
    have h2 : Nat.testBit (2 ^ k * q + b) i = Nat.testBit b i := by
      rw [Nat.testBit_to_div_mod, Nat.testBit_to_div_mod]
      have hdiv : (2 ^ k * q + b) / 2 ^ i = b / 2 ^ i + 2 ^ (k - i) * q := by
        rw [hpow, Nat.mul_assoc, Nat.add_comm,
          Nat.add_mul_div_left _ _ (Nat.pos_pow_of_pos i (by norm_num))]
      rw [hdiv, hsplit]
      have : b / 2 ^ i + 2 * 2 ^ (k - i - 1) * q = b / 2 ^ i + 2 * (2 ^ (k - i - 1) * q) := by ring
      rw [this, Nat.add_mul_mod_self_left]
    rw [h1, h2]; simp
  · have h1 : Nat.testBit b i = false := by
      have : b / 2 ^ i = 0 :=
        Nat.div_eq_of_lt (lt_of_lt_of_le hb (Nat.pow_le_pow_right (by norm_num) hi))
      rw [Nat.testBit_to_div_mod, this]
      simp
    have h2 : Nat.testBit (2 ^ k * q + b) i = Nat.testBit (2 ^ k * q) i := by
      rw [Nat.testBit_to_div_mod, Nat.testBit_to_div_mod]
      have hik : (2 : Nat) ^ i = 2 ^ k * 2 ^ (i - k) := by
        rw [← pow_add]; congr 1; omega
      have e1 : (2 ^ k * q + b) / 2 ^ i = q / 2 ^ (i - k) := by
        rw [hik, ← Nat.div_div_eq_div_mul]
        have : (2 ^ k * q + b) / 2 ^ k = q := by
          rw [Nat.add_comm, Nat.add_mul_div_left _ _ (Nat.pos_pow_of_pos k (by norm_num)),
            Nat.div_eq_of_lt hb]
          omega
        rw [this]
      have e2 : 2 ^ k * q / 2 ^ i = q / 2 ^ (i - k) := by
        rw [hik, ← Nat.div_div_eq_div_mul,
          Nat.mul_div_cancel_left _ (Nat.pos_pow_of_pos k (by norm_num))]
      rw [e1, e2]
    rw [h1, h2]; simp

theorem add_of_dvd_lt {S A B : Nat} (hA : S ∣ A) (hB : S ∣ B) (h : A < B) :
    A + S ≤ B := by
  obtain ⟨x, hx⟩ := hA
  obtain ⟨y, hy⟩ := hB
  subst hx; subst hy
  have hxy : x < y := Nat.lt_of_mul_lt_mul_left h
  calc S * x + S = S * (x + 1) := by ring
    _ ≤ S * y := Nat.mul_le_mul_left S hxy

theorem octet_aligned (n j k : Nat) (hk : k ≤ 8) (h : n % 2 ^ (8 * (3 - j) + k) = 0) :
    octet n j % 2 ^ k = 0 := by
  unfold octet
  obtain ⟨m, hm⟩ : 2 ^ (8 * (3 - j) + k) ∣ n := Nat.dvd_of_mod_eq_zero h
  subst hm
  have e1 : (2 : Nat) ^ (8 * (3 - j) + k) = 2 ^ (8 * (3 - j)) * 2 ^ k := by rw [← pow_add]
  rw [e1, Nat.mul_assoc, Nat.mul_comm (2 ^ (8 * (3 - j))),
    Nat.mul_div_cancel _ (Nat.pos_pow_of_pos _ (by norm_num))]
  have e2 : (256 : Nat) = 2 ^ k * 2 ^ (8 - k) := by
    rw [← pow_add]
    have : k + (8 - k) = 8 := by omega
    rw [this]; norm_num
  rw [e2, Nat.mul_mod_mul_left]
  exact Nat.mul_mod_right _ _

theorem maskOctet_eq (o off : Nat) (hoff : off ≤ 8) : maskOctet o off = o % 2 ^ (8 - off) := by
  unfold maskOctet
  rw [Nat.shiftLeft_eq, Nat.shiftRight_eq_div_pow]
  have h256 : (256 : Nat) = 2 ^ (8 - off) * 2 ^ off := by
    rw [← pow_add]
    have : 8 - off + off = 8 := by omega
    rw [this]; norm_num
  rw [h256, Nat.mul_mod_mul_right, Nat.mul_div_cancel _ (Nat.pos_pow_of_pos _ (by norm_num))]

theorem maskConst : ∀ off < 8, ((255 <<< off) % 256) >>> off = 2 ^ (8 - off) - 1 := by decide

theorem lastOctet_aligned (o off : Nat) (hoff : off < 8) (hal : o % 2 ^ (8 - off) = 0) :
    lastOctet o off = o + (2 ^ (8 - off) - 1) := by
  unfold lastOctet
  rw [maskConst off hoff]
  exact lor_eq_add_of_aligned o _ hal (by have := Nat.one_le_two_pow (n := 8 - off); omega)

theorem last_eq (c : Cidr) (hv : validCidr c) : Cidr.last c = c.network + (2 ^ (32 - c.pfx) - 1) := by
  obtain ⟨n, p⟩ := c
  obtain ⟨hn, hp, hal⟩ := hv
  simp only [Cidr.last] at *
  rcases Nat.lt_or_ge p 8 with h8 | h8
  · -- first octet is the boundary
    have hfo : p / 8 = 0 := by omega
    have hoct : lastOctet (octet n 0) (p % 8) = octet n 0 + (2 ^ (8 - p % 8) - 1) := by
      apply lastOctet_aligned _ _ (Nat.mod_lt _ (by norm_num))
      apply octet_aligned n 0 _ (by omega)
      have e : 8 * (3 - 0) + (8 - p % 8) = 32 - p := by omega
      rw [e]; exact hal
    have hE : (2 : Nat) ^ (32 - p) = 2 ^ (8 - p % 8) * 16777216 := by
      rw [show (16777216 : Nat) = 2 ^ 24 from by norm_num, ← pow_add]
      congr 1; omega
    have hX : 1 ≤ (2 : Nat) ^ (8 - p % 8) := Nat.one_le_two_pow
    have hlow : n % 16777216 = 0 := by
      obtain ⟨t, ht⟩ : (16777216 : Nat) ∣ n := by
        have h1 : (2 : Nat) ^ 24 ∣ 2 ^ (32 - p) := pow_dvd_pow 2 (by omega)
        have h2 : (2 : Nat) ^ (32 - p) ∣ n := Nat.dvd_of_mod_eq_zero hal
        simpa using h1.trans h2
      subst ht; simp [Nat.mul_mod_right]
    simp only [lastOctetVal, hfo]
    norm_num
    rw [hoct]
    simp only [octet]
    norm_num
    omega
  rcases Nat.lt_or_ge p 16 with h16 | h16
  · have hfo : p / 8 = 1 := by omega
    have hoct : lastOctet (octet n 1) (p % 8) = octet n 1 + (2 ^ (8 - p % 8) - 1) := by
      apply lastOctet_aligned _ _ (Nat.mod_lt _ (by norm_num))
      apply octet_aligned n 1 _ (by omega)
      have e : 8 * (3 - 1) + (8 - p % 8) = 32 - p := by omega
      rw [e]; exact hal
    have hE : (2 : Nat) ^ (32 - p) = 2 ^ (8 - p % 8) * 65536 := by
      rw [show (65536 : Nat) = 2 ^ 16 from by norm_num, ← pow_add]
      congr 1; omega
    have hX : 1 ≤ (2 : Nat) ^ (8 - p % 8) := Nat.one_le_two_pow
    have hlow : n % 65536 = 0 := by
      obtain ⟨t, ht⟩ : (65536 : Nat) ∣ n := by
        have h1 : (2 : Nat) ^ 16 ∣ 2 ^ (32 - p) := pow_dvd_pow 2 (by omega)
        have h2 : (2 : Nat) ^ (32 - p) ∣ n := Nat.dvd_of_mod_eq_zero hal
        simpa using h1.trans h2
      subst ht; simp [Nat.mul_mod_right]
    simp only [lastOctetVal, hfo]
    norm_num
    rw [hoct]
    simp only [octet]
    norm_num
    omega
  rcases Nat.lt_or_ge p 24 with h24 | h24
  · have hfo : p / 8 = 2 := by omega
    have hoct : lastOctet (octet n 2) (p % 8) = octet n 2 + (2 ^ (8 - p % 8) - 1) := by
      apply lastOctet_aligned _ _ (Nat.mod_lt _ (by norm_num))
      apply octet_aligned n 2 _ (by omega)
      have e : 8 * (3 - 2) + (8 - p % 8) = 32 - p := by omega
      rw [e]; exact hal
    have hE : (2 : Nat) ^ (32 - p) = 2 ^ (8 - p % 8) * 256 := by
      rw [show (256 : Nat) = 2 ^ 8 from by norm_num, ← pow_add]
      congr 1; omega
    have hX : 1 ≤ (2 : Nat) ^ (8 - p % 8) := Nat.one_le_two_pow
    have hlow : n % 256 = 0 := by
      obtain ⟨t, ht⟩ : (256 : Nat) ∣ n := by
        have h1 : (2 : Nat) ^ 8 ∣ 2 ^ (32 - p) := pow_dvd_pow 2 (by omega)
        have h2 : (2 : Nat) ^ (32 - p) ∣ n := Nat.dvd_of_mod_eq_zero hal
        simpa using h1.trans h2
      subst ht; simp [Nat.mul_mod_right]
    simp only [lastOctetVal, hfo]
    norm_num
    rw [hoct]
    simp only [octet]
    norm_num
    omega
  rcases Nat.lt_or_ge p 32 with h32 | h32
  · have hfo : p / 8 = 3 := by omega
    have hoct : lastOctet (octet n 3) (p % 8) = octet n 3 + (2 ^ (8 - p % 8) - 1) := by
      apply lastOctet_aligned _ _ (Nat.mod_lt _ (by norm_num))
      apply octet_aligned n 3 _ (by omega)
      have e : 8 * (3 - 3) + (8 - p % 8) = 32 - p := by omega
      rw [e]; exact hal
    have hE : (2 : Nat) ^ (32 - p) = 2 ^ (8 - p % 8) := by congr 1; omega
    have hX : 1 ≤ (2 : Nat) ^ (8 - p % 8) := Nat.one_le_two_pow
    simp only [lastOctetVal, hfo]
    norm_num
    rw [hoct]
    simp only [octet]
    norm_num
    omega
  · have hp32 : p = 32 := by omega
    subst hp32
    simp only [lastOctetVal]
    norm_num
    simp only [octet]
    norm_num
    omega

theorem modZero_of_pow_dvd (n a b : Nat) (hab : a ≤ b) (hal : n % 2 ^ b = 0) :
    n % 2 ^ a = 0 := by
  obtain ⟨t, ht⟩ : (2 : Nat) ^ a ∣ n :=
    (pow_dvd_pow 2 hab).trans (Nat.dvd_of_mod_eq_zero hal)
  subst ht; simp [Nat.mul_mod_right]

theorem invalidNetworkCheck_iff (n p : Nat) (hp : p ≤ 32) :
    invalidNetworkCheck n p = false ↔ n % 2 ^ (32 - p) = 0 := by
  rcases Nat.lt_or_ge p 8 with h8 | h8
  · have hfo : p / 8 = 0 := by omega
    have hE : (2 : Nat) ^ (32 - p) = 2 ^ (8 - p % 8) * 16777216 := by
      rw [show (16777216 : Nat) = 2 ^ 24 from by norm_num, ← pow_add]
      congr 1; omega
    have hXd : (2 : Nat) ^ (8 - p % 8) ∣ 256 := by
      rw [show (256 : Nat) = 2 ^ 8 from by norm_num]
      exact pow_dvd_pow 2 (by omega)
    simp only [invalidNetworkCheck, octetBad, hfo]
    norm_num
    rw [maskOctet_eq _ _ (by omega)]
    constructor
    · rintro ⟨⟨⟨h1, h2⟩, h3⟩, h4⟩
      have h65 : n % 16777216 = 0 := by
        simp only [octet] at h2 h3 h4
        norm_num at h2 h3 h4
        omega
      have ht : (n / 16777216) % 2 ^ (8 - p % 8) = 0 := by
        have hmm := Nat.mod_mod_of_dvd (n / 16777216) hXd
        simp only [octet] at h1
        norm_num at h1
        omega
      rw [hE]
      obtain ⟨u, hu⟩ : (2 : Nat) ^ (8 - p % 8) ∣ n / 16777216 := Nat.dvd_of_mod_eq_zero ht
      have hn65 : 16777216 * (n / 16777216) = n := Nat.mul_div_cancel' (Nat.dvd_of_mod_eq_zero h65)
      calc n % (2 ^ (8 - p % 8) * 16777216)
          = (16777216 * (n / 16777216)) % (2 ^ (8 - p % 8) * 16777216) := by rw [hn65]
        _ = (2 ^ (8 - p % 8) * 16777216 * u) % (2 ^ (8 - p % 8) * 16777216) := by rw [hu]; ring_nf
        _ = 0 := Nat.mul_mod_right _ _
    · intro hal
      have h65 : n % 16777216 = 0 := modZero_of_pow_dvd n 24 (32 - p) (by omega) hal
      refine ⟨⟨⟨?_, ?_⟩, ?_⟩, ?_⟩
      · have := octet_aligned n 0 (8 - p % 8) (by omega) (by
          have e : 8 * (3 - 0) + (8 - p % 8) = 32 - p := by omega
          rw [e]; exact hal)
        omega
      · simp only [octet]; norm_num; omega
      · simp only [octet]; norm_num; omega
      · simp only [octet]; norm_num; omega
  rcases Nat.lt_or_ge p 16 with h16 | h16
  · have hfo : p / 8 = 1 := by omega
    have hE : (2 : Nat) ^ (32 - p) = 2 ^ (8 - p % 8) * 65536 := by
      rw [show (65536 : Nat) = 2 ^ 16 from by norm_num, ← pow_add]
      congr 1; omega
    have hXd : (2 : Nat) ^ (8 - p % 8) ∣ 256 := by
      rw [show (256 : Nat) = 2 ^ 8 from by norm_num]
      exact pow_dvd_pow 2 (by omega)
    simp only [invalidNetworkCheck, octetBad, hfo]
    norm_num
    rw [maskOctet_eq _ _ (by omega)]
    constructor
    · rintro ⟨⟨h1, h2⟩, h3⟩
      have h65 : n % 65536 = 0 := by
        simp only [octet] at h2 h3
        norm_num at h2 h3
        omega
      have ht : (n / 65536) % 2 ^ (8 - p % 8) = 0 := by
        have hmm := Nat.mod_mod_of_dvd (n / 65536) hXd
        simp only [octet] at h1
        norm_num at h1
        omega
      rw [hE]
      obtain ⟨u, hu⟩ : (2 : Nat) ^ (8 - p % 8) ∣ n / 65536 := Nat.dvd_of_mod_eq_zero ht
      have hn65 : 65536 * (n / 65536) = n := Nat.mul_div_cancel' (Nat.dvd_of_mod_eq_zero h65)
      calc n % (2 ^ (8 - p % 8) * 65536)
          = (65536 * (n / 65536)) % (2 ^ (8 - p % 8) * 65536) := by rw [hn65]
        _ = (2 ^ (8 - p % 8) * 65536 * u) % (2 ^ (8 - p % 8) * 65536) := by rw [hu]; ring_nf
        _ = 0 := Nat.mul_mod_right _ _
    · intro hal
      have h65 : n % 65536 = 0 := modZero_of_pow_dvd n 16 (32 - p) (by omega) hal
      refine ⟨⟨?_, ?_⟩, ?_⟩
      · have := octet_aligned n 1 (8 - p % 8) (by omega) (by
          have e : 8 * (3 - 1) + (8 - p % 8) = 32 - p := by omega
          rw [e]; exact hal)
        omega
      · simp only [octet]; norm_num; omega
      · simp only [octet]; norm_num; omega
  rcases Nat.lt_or_ge p 24 with h24 | h24
  · have hfo : p / 8 = 2 := by omega
    have hE : (2 : Nat) ^ (32 - p) = 2 ^ (8 - p % 8) * 256 := by
      rw [show (256 : Nat) = 2 ^ 8 from by norm_num, ← pow_add]
      congr 1; omega
    have hXd : (2 : Nat) ^ (8 - p % 8) ∣ 256 := by
      rw [show (256 : Nat) = 2 ^ 8 from by norm_num]
      exact pow_dvd_pow 2 (by omega)
    simp only [invalidNetworkCheck, octetBad, hfo]
    norm_num
    rw [maskOctet_eq _ _ (by omega)]
    constructor
    · rintro ⟨h1, h2⟩
      have h65 : n % 256 = 0 := by
        simp only [octet] at h2
        norm_num at h2
        omega
      have ht : (n / 256) % 2 ^ (8 - p % 8) = 0 := by
        have hmm := Nat.mod_mod_of_dvd (n / 256) hXd
        simp only [octet] at h1
        norm_num at h1
        omega
      rw [hE]
      obtain ⟨u, hu⟩ : (2 : Nat) ^ (8 - p % 8) ∣ n / 256 := Nat.dvd_of_mod_eq_zero ht
      have hn65 : 256 * (n / 256) = n := Nat.mul_div_cancel' (Nat.dvd_of_mod_eq_zero h65)
      calc n % (2 ^ (8 - p % 8) * 256)
          = (256 * (n / 256)) % (2 ^ (8 - p % 8) * 256) := by rw [hn65]
        _ = (2 ^ (8 - p % 8) * 256 * u) % (2 ^ (8 - p % 8) * 256) := by rw [hu]; ring_nf
        _ = 0 := Nat.mul_mod_right _ _
    · intro hal
      have h65 : n % 256 = 0 := modZero_of_pow_dvd n 8 (32 - p) (by omega) hal
      refine ⟨?_, ?_⟩
      · have := octet_aligned n 2 (8 - p % 8) (by omega) (by
          have e : 8 * (3 - 2) + (8 - p % 8) = 32 - p := by omega
          rw [e]; exact hal)
        omega
      · simp only [octet]; norm_num; omega
  rcases Nat.lt_or_ge p 32 with h32 | h32
  · have hfo : p / 8 = 3 := by omega
    have hE : (2 : Nat) ^ (32 - p) = 2 ^ (8 - p % 8) := by congr 1; omega
    have hXd : (2 : Nat) ^ (8 - p % 8) ∣ 256 := by
      rw [show (256 : Nat) = 2 ^ 8 from by norm_num]
      exact pow_dvd_pow 2 (by omega)
    simp only [invalidNetworkCheck, octetBad, hfo]
    norm_num
    rw [maskOctet_eq _ _ (by omega)]
    constructor
    · intro h1
      have ht : n % 2 ^ (8 - p % 8) = 0 := by
        have hmm := Nat.mod_mod_of_dvd n hXd
        simp only [octet] at h1
        norm_num at h1
        omega
      rw [hE]; exact ht
    · intro hal
      have := octet_aligned n 3 (8 - p % 8) (by omega) (by
        have e : 8 * (3 - 3) + (8 - p % 8) = 32 - p := by omega
        rw [e]; exact hal)
      omega
  · have hp32 : p = 32 := by omega
    subst hp32
    simp [invalidNetworkCheck, octetBad, Nat.mod_one]

theorem contains_iff (c x : Cidr) (hc : validCidr c) (hx : validCidr x) :
    Cidr.contains c x = true ↔
      (c.network ≤ x.network ∧
        x.network + 2 ^ (32 - x.pfx) ≤ c.network + 2 ^ (32 - c.pfx)) := by
  unfold Cidr.contains Cidr.first
  rw [last_eq c hc, last_eq x hx]
  have h1 : 1 ≤ (2 : Nat) ^ (32 - c.pfx) := Nat.one_le_two_pow
  have h2 : 1 ≤ (2 : Nat) ^ (32 - x.pfx) := Nat.one_le_two_pow
  simp only [Bool.and_eq_true, decide_eq_true_eq, ge_iff_le]
  omega

theorem mid_eq (c : Cidr) (hv : validCidr c) (hp : c.pfx < 32) :
    Cidr.mid c = c.network + 2 ^ (31 - c.pfx) := by
  unfold Cidr.mid
  rw [if_neg (by omega)]
  have e : 1 <<< (32 - c.pfx - 1) = 2 ^ (31 - c.pfx) := by
    rw [Nat.shiftLeft_eq, one_mul]; congr 1; omega
  rw [e]
  obtain ⟨hn, hple, hal⟩ := hv
  exact lor_eq_add_of_aligned (k := 32 - c.pfx) _ _ hal
    (Nat.pow_lt_pow_right (by norm_num) (by omega))

theorem left_subnet_eq (c : Cidr) (hp : c.pfx < 32) :
    Cidr.left_subnet c = some ⟨c.network, c.pfx + 1⟩ := by
  unfold Cidr.left_subnet
  rw [if_neg (by omega)]

theorem right_subnet_eq (c : Cidr) (hv : validCidr c) (hp : c.pfx < 32) :
    Cidr.right_subnet c = some ⟨c.network + 2 ^ (31 - c.pfx), c.pfx + 1⟩ := by
  obtain ⟨hn, hple, hal⟩ := hv
  unfold Cidr.right_subnet
  rw [if_neg (by omega)]
  simp only [Option.some.injEq, Cidr.mk.injEq, and_true]
  have hs : 32 - (c.pfx + 1) = 31 - c.pfx := by omega
  obtain ⟨m, hm⟩ : (2 : Nat) ^ (32 - c.pfx) ∣ c.network := Nat.dvd_of_mod_eq_zero hal
  have hsplit : (2 : Nat) ^ (32 - c.pfx) = 2 ^ (31 - c.pfx) * 2 := by
    rw [← pow_succ]; congr 1; omega
  have hdiv : c.network >>> (32 - (c.pfx + 1)) = 2 * m := by
    rw [Nat.shiftRight_eq_div_pow, hs, hm, hsplit]
    calc 2 ^ (31 - c.pfx) * 2 * m / 2 ^ (31 - c.pfx)
        = 2 ^ (31 - c.pfx) * (2 * m) / 2 ^ (31 - c.pfx) := by ring_nf
      _ = 2 * m := Nat.mul_div_cancel_left _ (Nat.pos_pow_of_pos _ (by norm_num))
  have hor : (2 * m) ||| 1 = 2 * m + 1 := by
    have := lor_eq_add_of_aligned (k := 1) (2 * m) 1 (by simp [Nat.mul_mod_right]) (by norm_num)
    simpa using this
  rw [hdiv, hor, Nat.shiftLeft_eq, hs, hm, hsplit]
  ring

theorem valid_upper (c : Cidr) (hv : validCidr c) :
    c.network + 2 ^ (32 - c.pfx) ≤ 2 ^ 32 := by
  obtain ⟨hn, hp, hal⟩ := hv
  exact add_of_dvd_lt (Nat.dvd_of_mod_eq_zero hal) (pow_dvd_pow 2 (by omega)) hn

theorem valid_left (c : Cidr) (hv : validCidr c) (hp : c.pfx < 32) :
    validCidr ⟨c.network, c.pfx + 1⟩ := by
  obtain ⟨hn, hple, hal⟩ := hv
  unfold validCidr
  dsimp only
  refine ⟨hn, by omega, ?_⟩
  have e : 32 - (c.pfx + 1) = 31 - c.pfx := by omega
  rw [e]
  exact modZero_of_pow_dvd _ _ (32 - c.pfx) (by omega) hal

theorem valid_right (c : Cidr) (hv : validCidr c) (hp : c.pfx < 32) :
    validCidr ⟨c.network + 2 ^ (31 - c.pfx), c.pfx + 1⟩ := by
  have hup := valid_upper c hv
  obtain ⟨hn, hple, hal⟩ := hv
  have hsplit : (2 : Nat) ^ (32 - c.pfx) = 2 ^ (31 - c.pfx) * 2 := by
    rw [← pow_succ]; congr 1; omega
  unfold validCidr
  dsimp only
  refine ⟨by omega, by omega, ?_⟩
  have e : 32 - (c.pfx + 1) = 31 - c.pfx := by omega
  rw [e, Nat.add_mod_right]
  exact modZero_of_pow_dvd _ _ (32 - c.pfx) (by omega) hal

theorem contains_addr_iff (c : Cidr) (hc : validCidr c) (a : Nat) (ha : a < 2 ^ 32) :
    (Cidr.contains c ⟨a, 32⟩ = true) ↔ inBlock c a := by
  have hva : validCidr ⟨a, 32⟩ := ⟨ha, le_refl 32, by simpa using Nat.mod_one a⟩
  rw [contains_iff c ⟨a, 32⟩ hc hva]
  unfold inBlock
  have h1 : 1 ≤ (2 : Nat) ^ (32 - c.pfx) := Nat.one_le_two_pow
  norm_num
  omega

theorem sub_pfx_ge (c x : Cidr) (hc : validCidr c) (hx : validCidr x)
    (h : c.network ≤ x.network ∧
      x.network + 2 ^ (32 - x.pfx) ≤ c.network + 2 ^ (32 - c.pfx)) :
    c.pfx ≤ x.pfx := by
  by_contra hlt
  push_neg at hlt
  have hb1 := hc.2.1
  have hb2 := hx.2.1
  have : (2 : Nat) ^ (32 - c.pfx) < 2 ^ (32 - x.pfx) := by
    apply Nat.pow_lt_pow_right (by norm_num)
    omega
  omega

theorem sub_eq_of_pfx_eq (c x : Cidr) (hpf : c.pfx = x.pfx)
    (h : c.network ≤ x.network ∧
      x.network + 2 ^ (32 - x.pfx) ≤ c.network + 2 ^ (32 - c.pfx)) :
    x = c := by
  obtain ⟨n1, p1⟩ := c
  obtain ⟨n2, p2⟩ := x
  dsimp only at hpf h
  subst hpf
  obtain ⟨ha, hb⟩ := h
  have : n2 = n1 := by omega
  subst this
  rfl

theorem child_split (c x : Cidr) (hc : validCidr c) (hx : validCidr x) (hp : c.pfx < 32)
    (hsub : c.network ≤ x.network ∧
      x.network + 2 ^ (32 - x.pfx) ≤ c.network + 2 ^ (32 - c.pfx))
    (hne : x ≠ c) :
    (x.network < c.network + 2 ^ (31 - c.pfx) ∧
      c.network ≤ x.network ∧
      x.network + 2 ^ (32 - x.pfx) ≤ c.network + 2 ^ (31 - c.pfx)) ∨
    (c.network + 2 ^ (31 - c.pfx) ≤ x.network ∧
      x.network + 2 ^ (32 - x.pfx) ≤ c.network + 2 ^ (32 - c.pfx)) := by
  have hpf : c.pfx ≤ x.pfx := sub_pfx_ge c x hc hx hsub
  have hpx : c.pfx < x.pfx := by
    rcases Nat.eq_or_lt_of_le hpf with he | hlt
    · exact absurd (sub_eq_of_pfx_eq c x he hsub) hne
    · exact hlt
  rcases Nat.lt_or_ge x.network (c.network + 2 ^ (31 - c.pfx)) with hlt | hge
  · left
    refine ⟨hlt, hsub.1, ?_⟩
    have hA : (2 : Nat) ^ (32 - x.pfx) ∣ x.network := Nat.dvd_of_mod_eq_zero hx.2.2
    have hB : (2 : Nat) ^ (32 - x.pfx) ∣ c.network + 2 ^ (31 - c.pfx) := by
      apply Nat.dvd_add
      · exact (pow_dvd_pow 2 (by omega)).trans (Nat.dvd_of_mod_eq_zero hc.2.2)
      · exact pow_dvd_pow 2 (by omega)
    exact add_of_dvd_lt hA hB hlt
  · right
    exact ⟨hge, hsub.2⟩

theorem bit_select (N H a : Nat) (hH : 0 < H) (hN : N % (2 * H) = 0) (h1 : N ≤ a)
    (h2 : a < N + 2 * H) : (a / H % 2 = 0 ↔ a < N + H) := by
  have hNH : H ∣ N := (dvd_mul_left H 2).trans (Nat.dvd_of_mod_eq_zero hN)
  have hdiv : a / H = N / H + (a - N) / H := by
    conv_lhs => rw [show a = N + (a - N) from by omega]
    exact Nat.add_div_of_dvd_right hNH
  have hq2 : (N / H) % 2 = 0 := by
    obtain ⟨k, hk⟩ : (2 * H) ∣ N := Nat.dvd_of_mod_eq_zero hN
    rw [hk, Nat.mul_comm 2 H, Nat.mul_assoc, Nat.mul_div_cancel_left _ hH]
    exact Nat.mul_mod_right _ _
  have hrH : (a - N) / H < 2 := by
    rw [Nat.div_lt_iff_lt_mul hH]
    omega
  have hr0 : (a - N) / H = 0 ↔ (a - N) < H := Nat.div_eq_zero_iff hH
  obtain ⟨r, hr⟩ : ∃ r, (a - N) / H = r := ⟨_, rfl⟩
  rw [hr] at hdiv hrH hr0
  omega

/-! ### The trie (src/fcidr.rs) -/

/-- A trie node (src/fcidr.rs `CidrNode` together with its `Inclusion`):
`leaf c false` is a node labelled `Inclusion::Excluded`, `leaf c true` one
labelled `Inclusion::Included`, and `subnets c l r` one labelled
`Inclusion::Subnets([l, r])`. -/
inductive CidrNode where
  | leaf (cidr : Cidr) (included : Bool)
  | subnets (cidr : Cidr) (left right : CidrNode)
deriving DecidableEq

/-- The `cidr` field of a node. -/
def CidrNode.cidr : CidrNode → Cidr
  | .leaf c _ => c
  | .subnets c _ _ => c

/-- `BinarySetOperator` (src/fcidr.rs). -/
inductive BinarySetOperator where
  | Difference
  | Union
deriving DecidableEq

/-- `impl Into<Inclusion> for BinarySetOperator`: the pure label written by
the operator, as the Boolean of a pure leaf (`Included = true`). -/
def BinarySetOperator.intoInclusion : BinarySetOperator → Bool
  | .Difference => false
  | .Union => true

/-- The test `self.inclusion == operator.into()`: a `Subnets` node never
equals a pure label. -/
def inclusionIsOp : CidrNode → BinarySetOperator → Bool
  | .leaf _ b, op => b = op.intoInclusion
  | .subnets _ _ _, _ => false

/-- `CidrNode::binary_set_operation` (src/fcidr.rs), with explicit fuel.
Mirrors the source: on an exact match the label is overwritten; when the
node's block properly contains the operand and the label differs from the
target, the node's children are reused (a `Subnets` node) or materialized
from the pure label via `left_subnet().unwrap()` / `right_subnet().unwrap()`
(the `unwrap` is the `none` case), the operation recurses into both
children, and the node collapses to the target label when both children end
up as that pure label; otherwise the node is returned unchanged. -/
def binarySetOperation : Nat → CidrNode → Cidr → BinarySetOperator → Option CidrNode
  | 0, _, _, _ => none
  | fuel + 1, n, cidr, op =>
    if n.cidr = cidr then
      some (.leaf n.cidr op.intoInclusion)
    else if Cidr.contains n.cidr cidr = true ∧ inclusionIsOp n op = false then
      let children : Option (CidrNode × CidrNode) :=
        match n with
        | .subnets _ l r => some (l, r)
        | .leaf c b =>
          match Cidr.left_subnet c, Cidr.right_subnet c with
          | some lc, some rc => some (.leaf lc b, .leaf rc b)
          | _, _ => none
      match children with
      | none => none
      | some (l, r) =>
        match binarySetOperation fuel l cidr op, binarySetOperation fuel r cidr op with
        | some lr, some rr =>
          if inclusionIsOp lr op && inclusionIsOp rr op then
            some (.leaf n.cidr op.intoInclusion)
          else
            some (.subnets n.cidr lr rr)
        | _, _ => none
    else
      some n

/-- `CidrNode::contains` (src/fcidr.rs), the superset descent: fail when the
query has a shorter prefix than the node, answer pure leaves directly, and
descend into the child selected by comparing the query's network address
with the node's midpoint. -/
def nodeContains : CidrNode → Cidr → Bool
  | n, cidr =>
    if cidr.pfx < n.cidr.pfx then false
    else
      match n with
      | .leaf _ false => false
      | .leaf c true => Cidr.contains c cidr
      | .subnets c l r =>
        if cidr.network < Cidr.mid c then nodeContains l cidr else nodeContains r cidr

/-- `Fcidr::complement` (src/fcidr.rs): swap the pure labels everywhere (the
source walks the trie with an explicit worklist). -/
def complementN : CidrNode → CidrNode
  | .leaf c b => .leaf c (!b)
  | .subnets c l r => .subnets c (complementN l) (complementN r)

/-- One step of the worklist loop of `Fcidr::new` (src/fcidr.rs), with
fuel: while the current node's block has a parent, wrap the node in a
`Subnets` parent whose other child is a fresh `Excluded` leaf; the side is
chosen by bit `32 - prefix` of the network.  The source's
`left_subnet().unwrap()` / `right_subnet().unwrap()` are the `none` cases. -/
def buildUp : Nat → CidrNode → Option CidrNode
  | 0, _ => none
  | fuel + 1, n =>
    match Cidr.parent n.cidr with
    | none => some n
    | some par =>
      if (n.cidr.network >>> (32 - n.cidr.pfx)) &&& 1 = 0 then
        match Cidr.right_subnet par with
        | some rc => buildUp fuel (.subnets par n (.leaf rc false))
        | none => none
      else
        match Cidr.left_subnet par with
        | some lc => buildUp fuel (.subnets par (.leaf lc false) n)
        | none => none

/-- `Fcidr` (src/fcidr.rs): the handle owning the root node. -/
structure Fcidr where
  cidr : CidrNode
deriving DecidableEq

/-- `Fcidr::default()`: a root covering `0.0.0.0/0`, labelled `Excluded`. -/
def Fcidr.default : Fcidr := ⟨.leaf Cidr.default false⟩

/-- `Fcidr::new(cidr)` (src/fcidr.rs): start from an `Included` node for
`cidr` and build parents up to the root.  Fuel 33 dominates the loop, which
runs `cidr.prefix` times. -/
def Fcidr.new (c : Cidr) : Option Fcidr :=
  (buildUp 33 (.leaf c true)).map Fcidr.mk

/-- `Fcidr::union` (src/fcidr.rs): the shared recursive procedure with
target `Union`.  Fuel 33 dominates the recursion depth (one level per
prefix length). -/
def Fcidr.union (f : Fcidr) (c : Cidr) : Option Fcidr :=
  (binarySetOperation 33 f.cidr c .Union).map Fcidr.mk

/-- `Fcidr::difference` (src/fcidr.rs): the shared recursive procedure with
target `Difference`. -/
def Fcidr.difference (f : Fcidr) (c : Cidr) : Option Fcidr :=
  (binarySetOperation 33 f.cidr c .Difference).map Fcidr.mk

/-- `Fcidr::complement`. -/
def Fcidr.complement (f : Fcidr) : Fcidr := ⟨complementN f.cidr⟩

/-- `Fcidr::is_superset` (src/fcidr.rs): delegate to `CidrNode::contains`. -/
def Fcidr.is_superset (f : Fcidr) (c : Cidr) : Bool := nodeContains f.cidr c

/-- Membership of an address in the set: walk the trie on the bits of `a`
from most significant to least significant until a pure label is reached
(bit `31 - prefix` selects the child at a `Subnets` node; `0` goes left). -/
def memAddr : CidrNode → Nat → Bool
  | .leaf _ b, _ => b
  | .subnets c l r, a =>
    if a / 2 ^ (31 - c.pfx) % 2 = 0 then memAddr l a else memAddr r a

/-- The depth-first left-to-right list of `Included` blocks below a node:
the sequence the iterator emits from that subtree. -/
def dfs : CidrNode → List Cidr
  | .leaf _ false => []
  | .leaf c true => [c]
  | .subnets _ l r => dfs l ++ dfs r

/-- Node size, used to show the iterator's worklist terminates. -/
def nodeSize : CidrNode → Nat
  | .leaf _ _ => 1
  | .subnets _ l r => nodeSize l + nodeSize r + 1

/-- `FcidrIntoIterator::next` (src/fcidr.rs), run to completion: pop a node;
an `Excluded` leaf is skipped, an `Included` leaf is emitted, a `Subnets`
node pushes its children (left on top).  Totality of this function is the
finiteness of the traversal. -/
def runIter : List CidrNode → List Cidr
  | [] => []
  | .leaf _ false :: rest => runIter rest
  | .leaf c true :: rest => c :: runIter rest
  | .subnets _ l r :: rest => runIter (l :: r :: rest)
termination_by s => (s.map nodeSize).sum
decreasing_by
  all_goals simp [List.map_cons, List.sum_cons, nodeSize]
  all_goals omega

/-- `Fcidr::iter` (src/fcidr.rs): the iterator starts from the root. -/
def Fcidr.iterList (f : Fcidr) : List Cidr := runIter [f.cidr]

/-! ### Structural invariants -/

/-- Well-formedness of a trie: every node's block is a valid CIDR and the
children of a `Subnets` node cover exactly the two halves of its block. -/
inductive WF : CidrNode → Prop
  | leaf {c : Cidr} {b : Bool} : validCidr c → WF (.leaf c b)
  | subnets {c : Cidr} {l r : CidrNode} :
      validCidr c → c.pfx < 32 →
      l.cidr = ⟨c.network, c.pfx + 1⟩ →
      r.cidr = ⟨c.network + 2 ^ (31 - c.pfx), c.pfx + 1⟩ →
      WF l → WF r → WF (.subnets c l r)

/-- Two sibling nodes in the same pure state (`Included`/`Included` or
`Excluded`/`Excluded`). -/
def pureEq : CidrNode → CidrNode → Prop
  | .leaf _ b1, .leaf _ b2 => b1 = b2
  | _, _ => False

instance (l r : CidrNode) : Decidable (pureEq l r) := by
  unfold pureEq
  rcases l with _ | _ <;> rcases r with _ | _ <;> infer_instance

/-- The canonicalization invariant: no `Subnets` node has both children in
the same pure state. -/
inductive Canonical : CidrNode → Prop
  | leaf {c : Cidr} {b : Bool} : Canonical (.leaf c b)
  | subnets {c : Cidr} {l r : CidrNode} :
      Canonical l → Canonical r → ¬ pureEq l r → Canonical (.subnets c l r)

/-- The `Fcidr` values reachable through the public constructors and the
mutating operations applied with valid arguments. -/
inductive Reachable : Fcidr → Prop
  | dflt : Reachable Fcidr.default
  | fromNew {c : Cidr} {f : Fcidr} : validCidr c → Fcidr.new c = some f → Reachable f
  | fromUnion {f f2 : Fcidr} {c : Cidr} :
      Reachable f → validCidr c → Fcidr.union f c = some f2 → Reachable f2
  | fromDifference {f f2 : Fcidr} {c : Cidr} :
      Reachable f → validCidr c → Fcidr.difference f c = some f2 → Reachable f2
  | fromComplement {f : Fcidr} : Reachable f → Reachable (Fcidr.complement f)

/-! ### Range reasoning on blocks -/

/-- The range of `x` is included in the range of `c`. -/
def subRange (x c : Cidr) : Prop :=
  c.network ≤ x.network ∧ x.network + 2 ^ (32 - x.pfx) ≤ c.network + 2 ^ (32 - c.pfx)

/-- The ranges of `x` and `c` are disjoint. -/
def blocksDisjoint (x c : Cidr) : Prop :=
  c.network + 2 ^ (32 - c.pfx) ≤ x.network ∨ x.network + 2 ^ (32 - x.pfx) ≤ c.network

theorem WF.valid {n : CidrNode} (h : WF n) : validCidr n.cidr := by
  cases h with
  | leaf hv => exact hv
  | subnets hv _ _ _ _ _ => exact hv

theorem contains_iff_subRange (c x : Cidr) (hc : validCidr c) (hx : validCidr x) :
    Cidr.contains c x = true ↔ subRange x c := contains_iff c x hc hx

theorem block_nonempty (x : Cidr) : inBlock x x.network := by
  unfold inBlock
  have := Nat.one_le_two_pow (n := 32 - x.pfx)
  omega

theorem inBlock_of_subRange {x c : Cidr} {a : Nat} (h : subRange x c) (ha : inBlock x a) :
    inBlock c a := by
  unfold subRange at h
  unfold inBlock at *
  omega

theorem notDisjoint_of_subRange {x c : Cidr} (h : subRange x c) : ¬ blocksDisjoint x c := by
  unfold subRange at h
  unfold blocksDisjoint
  have h1 := Nat.one_le_two_pow (n := 32 - x.pfx)
  have h2 := Nat.one_le_two_pow (n := 32 - c.pfx)
  omega

theorem disjoint_notInBlock {x c : Cidr} {a : Nat} (h : blocksDisjoint x c)
    (ha : inBlock c a) : ¬ inBlock x a := by
  unfold blocksDisjoint at h
  unfold inBlock at *
  omega

theorem sub_pfx_lt (c x : Cidr) (hc : validCidr c) (hx : validCidr x)
    (hsub : subRange x c) (hne : x ≠ c) : c.pfx < x.pfx := by
  have hpf : c.pfx ≤ x.pfx := sub_pfx_ge c x hc hx hsub
  rcases Nat.eq_or_lt_of_le hpf with he | hlt
  · exact absurd (sub_eq_of_pfx_eq c x he hsub) hne
  · exact hlt

/-- Dichotomy at a `Subnets` node: a proper valid sub-block lies entirely in
the left half or entirely in the right half, decided by comparing its
network with the midpoint. -/
theorem child_cases (c x : Cidr) (hc : validCidr c) (hx : validCidr x) (hp : c.pfx < 32)
    (hsub : subRange x c) (hne : x ≠ c) :
    (subRange x ⟨c.network, c.pfx + 1⟩ ∧
      blocksDisjoint x ⟨c.network + 2 ^ (31 - c.pfx), c.pfx + 1⟩ ∧
      x.network < c.network + 2 ^ (31 - c.pfx)) ∨
    (subRange x ⟨c.network + 2 ^ (31 - c.pfx), c.pfx + 1⟩ ∧
      blocksDisjoint x ⟨c.network, c.pfx + 1⟩ ∧
      c.network + 2 ^ (31 - c.pfx) ≤ x.network) := by
  have hd := child_split c x hc hx hp hsub hne
  have hsplit : (2 : Nat) ^ (32 - c.pfx) = 2 ^ (31 - c.pfx) * 2 := by
    rw [← pow_succ]; congr 1; omega
  unfold subRange blocksDisjoint at *
  dsimp only
  have e : 32 - (c.pfx + 1) = 31 - c.pfx := by omega
  simp only [e]
  rcases hd with ⟨h1, h2, h3⟩ | ⟨h1, h2⟩
  · left; omega
  · right; omega

/-- Splitting membership in a block into its two halves. -/
theorem inBlock_split (c : Cidr) (hp : c.pfx < 32) (a : Nat) (ha : inBlock c a) :
    (inBlock ⟨c.network, c.pfx + 1⟩ a ∧ a < c.network + 2 ^ (31 - c.pfx)) ∨
    (inBlock ⟨c.network + 2 ^ (31 - c.pfx), c.pfx + 1⟩ a ∧
      c.network + 2 ^ (31 - c.pfx) ≤ a) := by
  have hsplit : (2 : Nat) ^ (32 - c.pfx) = 2 ^ (31 - c.pfx) * 2 := by
    rw [← pow_succ]; congr 1; omega
  unfold inBlock at *
  dsimp only
  have e : 32 - (c.pfx + 1) = 31 - c.pfx := by omega
  simp only [e]
  omega

/-- The trie walk at a `Subnets` node goes left exactly on the lower half. -/
theorem mem_subnets_left (c : Cidr) (l r : CidrNode) (hv : validCidr c) (hp : c.pfx < 32)
    (a : Nat) (ha : inBlock c a) (hlt : a < c.network + 2 ^ (31 - c.pfx)) :
    memAddr (.subnets c l r) a = memAddr l a := by
  have hsplit : 2 * (2 : Nat) ^ (31 - c.pfx) = 2 ^ (32 - c.pfx) := by
    rw [← pow_succ']; congr 1; omega
  have hbs := bit_select c.network (2 ^ (31 - c.pfx)) a (Nat.pos_pow_of_pos _ (by norm_num))
    (by rw [hsplit]; exact hv.2.2) ha.1 (by rw [hsplit]; exact ha.2)
  simp only [memAddr]
  rw [if_pos (hbs.mpr hlt)]

/-- The trie walk at a `Subnets` node goes right exactly on the upper half. -/
theorem mem_subnets_right (c : Cidr) (l r : CidrNode) (hv : validCidr c) (hp : c.pfx < 32)
    (a : Nat) (ha : inBlock c a) (hge : c.network + 2 ^ (31 - c.pfx) ≤ a) :
    memAddr (.subnets c l r) a = memAddr r a := by
  have hsplit : 2 * (2 : Nat) ^ (31 - c.pfx) = 2 ^ (32 - c.pfx) := by
    rw [← pow_succ']; congr 1; omega
  have hbs := bit_select c.network (2 ^ (31 - c.pfx)) a (Nat.pos_pow_of_pos _ (by norm_num))
    (by rw [hsplit]; exact hv.2.2) ha.1 (by rw [hsplit]; exact ha.2)
  simp only [memAddr]
  rw [if_neg (by omega : ¬ a / 2 ^ (31 - c.pfx) % 2 = 0)]

theorem inBlock_left_sub (c : Cidr) (hp : c.pfx < 32) {a : Nat}
    (h : inBlock ⟨c.network, c.pfx + 1⟩ a) : inBlock c a := by
  have hsplit : (2 : Nat) ^ (32 - c.pfx) = 2 ^ (31 - c.pfx) * 2 := by
    rw [← pow_succ]; congr 1; omega
  unfold inBlock at *
  dsimp only at h
  have e : 32 - (c.pfx + 1) = 31 - c.pfx := by omega
  rw [e] at h
  omega

theorem inBlock_right_sub (c : Cidr) (hp : c.pfx < 32) {a : Nat}
    (h : inBlock ⟨c.network + 2 ^ (31 - c.pfx), c.pfx + 1⟩ a) : inBlock c a := by
  have hsplit : (2 : Nat) ^ (32 - c.pfx) = 2 ^ (31 - c.pfx) * 2 := by
    rw [← pow_succ]; congr 1; omega
  unfold inBlock at *
  dsimp only at h
  have e : 32 - (c.pfx + 1) = 31 - c.pfx := by omega
  rw [e] at h
  omega

theorem inBlock_left_lt (c : Cidr) (hp : c.pfx < 32) {a : Nat}
    (h : inBlock ⟨c.network, c.pfx + 1⟩ a) : a < c.network + 2 ^ (31 - c.pfx) := by
  unfold inBlock at h
  dsimp only at h
  have e : 32 - (c.pfx + 1) = 31 - c.pfx := by omega
  rw [e] at h
  omega

theorem inBlock_right_ge (c : Cidr) {a : Nat}
    (h : inBlock ⟨c.network + 2 ^ (31 - c.pfx), c.pfx + 1⟩ a) :
    c.network + 2 ^ (31 - c.pfx) ≤ a := h.1

theorem isOp_leaf {n : CidrNode} {op : BinarySetOperator}
    (h : inclusionIsOp n op = true) : n = .leaf n.cidr op.intoInclusion := by
  cases n with
  | leaf c b =>
    simp only [inclusionIsOp, decide_eq_true_eq] at h
    rw [h]; rfl
  | subnets c l r => simp [inclusionIsOp] at h

/-- A canonical well-formed `Subnets` subtree never covers its whole block:
some address of the block is excluded. -/
theorem canonical_subnets_missing :
    ∀ (n : CidrNode), WF n → Canonical n →
      ∀ c l r, n = .subnets c l r → ∃ a, inBlock c a ∧ memAddr n a = false := by
  intro n
  induction n with
  | leaf c b => intro _ _ c' l' r' h; cases h
  | subnets c l r ihl ihr =>
    intro hw hc c' l' r' heq
    cases heq
    cases hw with
    | subnets hv hp hlc hrc hwl hwr =>
      cases hc with
      | subnets hcl hcr hpe =>
        have hsplit : (2 : Nat) ^ (32 - c.pfx) = 2 ^ (31 - c.pfx) * 2 := by
          rw [← pow_succ]; congr 1; omega
        have hH : 1 ≤ (2 : Nat) ^ (31 - c.pfx) := Nat.one_le_two_pow
        cases l with
        | leaf lc lb =>
          cases lb with
          | false =>
            refine ⟨c.network, ?_, ?_⟩
            · unfold inBlock; have := Nat.one_le_two_pow (n := 32 - c.pfx); omega
            · rw [mem_subnets_left c _ _ hv hp _ (by unfold inBlock; omega) (by omega)]
              rfl
          | true =>
            cases r with
            | leaf rc rb =>
              have hrb : rb = false := by
                by_contra hrb
                have : rb = true := by revert hrb; cases rb <;> simp
                exact hpe (by rw [this]; rfl)
              subst hrb
              refine ⟨c.network + 2 ^ (31 - c.pfx), ?_, ?_⟩
              · unfold inBlock; omega
              · rw [mem_subnets_right c _ _ hv hp _ (by unfold inBlock; omega) (by omega)]
                rfl
            | subnets rc rl rr =>
              obtain ⟨a, ha, hma⟩ := ihr hwr hcr rc rl rr rfl
              have hcid : rc = (CidrNode.subnets rc rl rr).cidr := rfl
              rw [hcid, hrc] at ha
              refine ⟨a, inBlock_right_sub c hp ha, ?_⟩
              rw [mem_subnets_right c _ _ hv hp _ (inBlock_right_sub c hp ha)
                (inBlock_right_ge c ha)]
              exact hma
        | subnets lc ll lr2 =>
          obtain ⟨a, ha, hma⟩ := ihl hwl hcl lc ll lr2 rfl
          have hcid : lc = (CidrNode.subnets lc ll lr2).cidr := rfl
          rw [hcid, hlc] at ha
          refine ⟨a, inBlock_left_sub c hp ha, ?_⟩
          rw [mem_subnets_left c _ _ hv hp _ (inBlock_left_sub c hp ha)
            (inBlock_left_lt c hp ha)]
          exact hma

theorem cidr_leaf (c : Cidr) (b : Bool) : (CidrNode.leaf c b).cidr = c := rfl

theorem cidr_subnets (c : Cidr) (l r : CidrNode) : (CidrNode.subnets c l r).cidr = c := rfl

set_option maxHeartbeats 1000000 in
/-- Main correctness of `binary_set_operation`: on a well-formed canonical
node whose block either contains the operand or is disjoint from it, with
enough fuel, the operation succeeds, preserves well-formedness, canonicity
and the covered block, leaves disjoint nodes untouched, and updates
membership pointwise to the target label on the operand's range. -/
theorem bsoMain (fuel : Nat) :
    ∀ (n : CidrNode) (x : Cidr) (op : BinarySetOperator),
      WF n → Canonical n → validCidr x →
      33 - n.cidr.pfx ≤ fuel →
      (subRange x n.cidr ∨ blocksDisjoint x n.cidr) →
      ∃ n2, binarySetOperation fuel n x op = some n2 ∧
        WF n2 ∧ Canonical n2 ∧ n2.cidr = n.cidr ∧
        (blocksDisjoint x n.cidr → n2 = n) ∧
        (∀ a, inBlock n.cidr a →
          memAddr n2 a = if inBlock x a then op.intoInclusion else memAddr n a) := by
  induction fuel with
  | zero =>
    intro n x op hw hc hx hfuel hor
    have := hw.valid.2.1
    omega
  | succ fuel ih =>
    intro n x op hw hc hx hfuel hor
    have hvc : validCidr n.cidr := hw.valid
    by_cases heq : n.cidr = x
    · refine ⟨.leaf n.cidr op.intoInclusion, ?_, WF.leaf hvc, Canonical.leaf, rfl, ?_, ?_⟩
      · simp only [binarySetOperation]
        rw [if_pos heq]
      · intro hd
        exfalso
        rw [heq] at hd
        exact notDisjoint_of_subRange ⟨le_refl _, le_refl _⟩ hd
      · intro a ha
        have hax : inBlock x a := by rw [← heq]; exact ha
        rw [if_pos hax]
        rfl
    · by_cases hcond : Cidr.contains n.cidr x = true ∧ inclusionIsOp n op = false
      · -- descent into children
        obtain ⟨hcont, hne_op⟩ := hcond
        have hsubr : subRange x n.cidr := (contains_iff_subRange _ _ hvc hx).mp hcont
        have hxne : x ≠ n.cidr := fun h => heq h.symm
        have hplt : n.cidr.pfx < x.pfx := sub_pfx_lt _ x hvc hx hsubr hxne
        have hp32 : n.cidr.pfx < 32 := by have := hx.2.1; omega
        have key : ∀ l r : CidrNode,
            l.cidr = ⟨n.cidr.network, n.cidr.pfx + 1⟩ →
            r.cidr = ⟨n.cidr.network + 2 ^ (31 - n.cidr.pfx), n.cidr.pfx + 1⟩ →
            WF l → WF r → Canonical l → Canonical r →
            ∃ lr rr, binarySetOperation fuel l x op = some lr ∧
              binarySetOperation fuel r x op = some rr ∧
              WF lr ∧ WF rr ∧ Canonical lr ∧ Canonical rr ∧
              lr.cidr = l.cidr ∧ rr.cidr = r.cidr ∧
              ((rr = r ∧ subRange x ⟨n.cidr.network, n.cidr.pfx + 1⟩) ∨
               (lr = l ∧ subRange x ⟨n.cidr.network + 2 ^ (31 - n.cidr.pfx), n.cidr.pfx + 1⟩)) ∧
              (∀ a, inBlock ⟨n.cidr.network, n.cidr.pfx + 1⟩ a →
                memAddr lr a = if inBlock x a then op.intoInclusion else memAddr l a) ∧
              (∀ a, inBlock ⟨n.cidr.network + 2 ^ (31 - n.cidr.pfx), n.cidr.pfx + 1⟩ a →
                memAddr rr a = if inBlock x a then op.intoInclusion else memAddr r a) := by
          intro l r hlc hrc hwl hwr hcl hcr
          have hfl : 33 - l.cidr.pfx ≤ fuel := by
            rw [hlc]; dsimp only; have := hvc.2.1; omega
          have hfr : 33 - r.cidr.pfx ≤ fuel := by
            rw [hrc]; dsimp only; have := hvc.2.1; omega
          rcases child_cases n.cidr x hvc hx hp32 hsubr hxne with ⟨hsx, hdx, hltx⟩ | ⟨hsx, hdx, hgex⟩
          · obtain ⟨lr, hlr, hwlr, hclr, hcidlr, hdjl, hmemL⟩ :=
              ih l x op hwl hcl hx hfl (Or.inl (by rw [hlc]; exact hsx))
            obtain ⟨rr, hrr, hwrr, hcrr, hcidrr, hdjr, hmemR⟩ :=
              ih r x op hwr hcr hx hfr (Or.inr (by rw [hrc]; exact hdx))
            have hrr_eq : rr = r := hdjr (by rw [hrc]; exact hdx)
            rw [hlc] at hmemL
            rw [hrc] at hmemR
            exact ⟨lr, rr, hlr, hrr, hwlr, hwrr, hclr, hcrr, hcidlr, hcidrr,
              Or.inl ⟨hrr_eq, hsx⟩, hmemL, hmemR⟩
          · obtain ⟨lr, hlr, hwlr, hclr, hcidlr, hdjl, hmemL⟩ :=
              ih l x op hwl hcl hx hfl (Or.inr (by rw [hlc]; exact hdx))
            obtain ⟨rr, hrr, hwrr, hcrr, hcidrr, hdjr, hmemR⟩ :=
              ih r x op hwr hcr hx hfr (Or.inl (by rw [hrc]; exact hsx))
            have hlr_eq : lr = l := hdjl (by rw [hlc]; exact hdx)
            rw [hlc] at hmemL
            rw [hrc] at hmemR
            exact ⟨lr, rr, hlr, hrr, hwlr, hwrr, hclr, hcrr, hcidlr, hcidrr,
              Or.inr ⟨hlr_eq, hsx⟩, hmemL, hmemR⟩
        cases n with
        | subnets c l r =>
          simp only [cidr_subnets] at hvc hsubr hplt hp32 key heq hcont hsubr hfuel hor ⊢
          cases hw with
          | subnets hv hp hlc2 hrc2 hwl hwr =>
          cases hc with
          | subnets hcl hcr hpe =>
          obtain ⟨lr, rr, hlr, hrr, hwlr, hwrr, hclr, hcrr, hcidlr, hcidrr, hdich, hmemL, hmemR⟩ :=
            key l r hlc2 hrc2 hwl hwr hcl hcr
          have hprog : binarySetOperation (fuel + 1) (CidrNode.subnets c l r) x op =
              if inclusionIsOp lr op && inclusionIsOp rr op then
                some (.leaf c op.intoInclusion)
              else some (.subnets c lr rr) := by
            simp only [binarySetOperation, cidr_subnets]
            rw [if_neg heq, if_pos ⟨hcont, hne_op⟩]
            rw [hlr, hrr]
          by_cases hcol : (inclusionIsOp lr op && inclusionIsOp rr op) = true
          · refine ⟨.leaf c op.intoInclusion, ?_, WF.leaf hv, Canonical.leaf, rfl, ?_, ?_⟩
            · rw [hprog, if_pos hcol]
            · exact fun hd => absurd hd (notDisjoint_of_subRange hsubr)
            · intro a ha
              have h12 := hcol
              rw [Bool.and_eq_true] at h12
              obtain ⟨hT1, hT2⟩ := h12
              have hlrT := isOp_leaf hT1
              have hrrT := isOp_leaf hT2
              rcases inBlock_split c hp32 a ha with ⟨hal, hlt2⟩ | ⟨har, hge2⟩
              · have hf := hmemL a hal
                rw [hlrT] at hf
                simp only [memAddr] at hf
                rw [mem_subnets_left c l r hv hp32 a ha hlt2]
                simp only [memAddr]
                exact hf
              · have hf := hmemR a har
                rw [hrrT] at hf
                simp only [memAddr] at hf
                rw [mem_subnets_right c l r hv hp32 a ha hge2]
                simp only [memAddr]
                exact hf
          · refine ⟨.subnets c lr rr, ?_, ?_, ?_, rfl, ?_, ?_⟩
            · rw [hprog, if_neg hcol]
            · exact WF.subnets hv hp32 (hcidlr.trans hlc2) (hcidrr.trans hrc2) hwlr hwrr
            · refine Canonical.subnets hclr hcrr ?_
              intro hpeq
              apply hcol
              cases lr with
              | subnets _ _ _ => exact absurd hpeq (by simp [pureEq])
              | leaf lcc lb =>
                cases rr with
                | subnets _ _ _ => exact absurd hpeq (by simp [pureEq])
                | leaf rcc rb =>
                  have hbb : lb = rb := hpeq
                  rcases hdich with ⟨hrr_eq, hsx⟩ | ⟨hlr_eq, hsx⟩
                  · have hax : inBlock x x.network := block_nonempty x
                    have hal : inBlock ⟨c.network, c.pfx + 1⟩ x.network :=
                      inBlock_of_subRange hsx hax
                    have hf := hmemL x.network hal
                    rw [if_pos hax] at hf
                    simp only [memAddr] at hf
                    simp [inclusionIsOp, hf, ← hbb]
                  · have hax : inBlock x x.network := block_nonempty x
                    have har : inBlock ⟨c.network + 2 ^ (31 - c.pfx), c.pfx + 1⟩ x.network :=
                      inBlock_of_subRange hsx hax
                    have hf := hmemR x.network har
                    rw [if_pos hax] at hf
                    simp only [memAddr] at hf
                    simp [inclusionIsOp, hf, hbb]
            · exact fun hd => absurd hd (notDisjoint_of_subRange hsubr)
            · intro a ha
              rcases inBlock_split c hp32 a ha with ⟨hal, hlt2⟩ | ⟨har, hge2⟩
              · rw [mem_subnets_left c lr rr hv hp32 a ha hlt2,
                  mem_subnets_left c l r hv hp32 a ha hlt2]
                exact hmemL a hal
              · rw [mem_subnets_right c lr rr hv hp32 a ha hge2,
                  mem_subnets_right c l r hv hp32 a ha hge2]
                exact hmemR a har
        | leaf c b =>
          simp only [cidr_leaf] at hvc hsubr hplt hp32 key heq hcont hfuel hor ⊢
          have hbneq : ¬ b = op.intoInclusion := by
            simpa [inclusionIsOp] using hne_op
          have hvl := valid_left c hvc hp32
          have hvr := valid_right c hvc hp32
          obtain ⟨lr, rr, hlr, hrr, hwlr, hwrr, hclr, hcrr, hcidlr, hcidrr, hdich, hmemL, hmemR⟩ :=
            key (.leaf ⟨c.network, c.pfx + 1⟩ b)
              (.leaf ⟨c.network + 2 ^ (31 - c.pfx), c.pfx + 1⟩ b)
              rfl rfl (WF.leaf hvl) (WF.leaf hvr) Canonical.leaf Canonical.leaf
          have hprog : binarySetOperation (fuel + 1) (CidrNode.leaf c b) x op =
              if inclusionIsOp lr op && inclusionIsOp rr op then
                some (.leaf c op.intoInclusion)
              else some (.subnets c lr rr) := by
            simp only [binarySetOperation, cidr_leaf]
            rw [if_neg heq, if_pos ⟨hcont, hne_op⟩]
            rw [left_subnet_eq c hp32, right_subnet_eq c hvc hp32]
            dsimp only
            rw [hlr, hrr]
          have hcol : (inclusionIsOp lr op && inclusionIsOp rr op) = false := by
            rcases hdich with ⟨hrr_eq, hsx⟩ | ⟨hlr_eq, hsx⟩
            · rw [hrr_eq]
              simp [inclusionIsOp, hbneq]
            · rw [hlr_eq]
              simp [inclusionIsOp, hbneq]
          refine ⟨.subnets c lr rr, ?_, ?_, ?_, rfl, ?_, ?_⟩
          · rw [hprog, hcol]
            simp
          · exact WF.subnets hvc hp32 hcidlr hcidrr hwlr hwrr
          · refine Canonical.subnets hclr hcrr ?_
            intro hpeq
            have hcolT : (inclusionIsOp lr op && inclusionIsOp rr op) = true := by
              cases lr with
              | subnets _ _ _ => exact absurd hpeq (by simp [pureEq])
              | leaf lcc lb =>
                cases rr with
                | subnets _ _ _ => exact absurd hpeq (by simp [pureEq])
                | leaf rcc rb =>
                  have hbb : lb = rb := hpeq
                  rcases hdich with ⟨hrr_eq, hsx⟩ | ⟨hlr_eq, hsx⟩
                  · have hax : inBlock x x.network := block_nonempty x
                    have hal : inBlock ⟨c.network, c.pfx + 1⟩ x.network :=
                      inBlock_of_subRange hsx hax
                    have hf := hmemL x.network hal
                    rw [if_pos hax] at hf
                    simp only [memAddr] at hf
                    simp [inclusionIsOp, hf, ← hbb]
                  · have hax : inBlock x x.network := block_nonempty x
                    have har : inBlock ⟨c.network + 2 ^ (31 - c.pfx), c.pfx + 1⟩ x.network :=
                      inBlock_of_subRange hsx hax
                    have hf := hmemR x.network har
                    rw [if_pos hax] at hf
                    simp only [memAddr] at hf
                    simp [inclusionIsOp, hf, hbb]
            rw [hcolT] at hcol
            cases hcol
          · exact fun hd => absurd hd (notDisjoint_of_subRange hsubr)
          · intro a ha
            rcases inBlock_split c hp32 a ha with ⟨hal, hlt2⟩ | ⟨har, hge2⟩
            · rw [mem_subnets_left c lr rr hvc hp32 a ha hlt2]
              have hf := hmemL a hal
              simp only [memAddr] at hf ⊢
              exact hf
            · rw [mem_subnets_right c lr rr hvc hp32 a ha hge2]
              have hf := hmemR a har
              simp only [memAddr] at hf ⊢
              exact hf
      · -- no-op case
        refine ⟨n, ?_, hw, hc, rfl, fun _ => rfl, ?_⟩
        · simp only [binarySetOperation]
          rw [if_neg heq, if_neg hcond]
        · intro a ha
          by_cases hop : inclusionIsOp n op = true
          · have hn := isOp_leaf hop
            rw [hn]
            simp only [memAddr]
            split <;> rfl
          · have hcont : ¬ Cidr.contains n.cidr x = true := by
              intro hcontra
              exact hcond ⟨hcontra, by revert hop; cases inclusionIsOp n op <;> simp⟩
            have hd : blocksDisjoint x n.cidr := by
              rcases hor with hs | hd
              · exact absurd ((contains_iff_subRange _ _ hvc hx).mpr hs) hcont
              · exact hd
            rw [if_neg (disjoint_notInBlock hd ha)]

theorem complement_cidr (n : CidrNode) : (complementN n).cidr = n.cidr := by
  cases n <;> rfl

theorem complement_WF : ∀ n, WF n → WF (complementN n) := by
  intro n h
  induction h with
  | leaf hv => exact WF.leaf hv
  | subnets hv hp hlc hrc hwl hwr ihl ihr =>
    exact WF.subnets hv hp (by rw [complement_cidr]; exact hlc)
      (by rw [complement_cidr]; exact hrc) ihl ihr

theorem pureEq_complement (l r : CidrNode) :
    pureEq (complementN l) (complementN r) ↔ pureEq l r := by
  cases l <;> cases r <;> simp [pureEq, complementN]

theorem complement_Canonical : ∀ n, Canonical n → Canonical (complementN n) := by
  intro n h
  induction h with
  | leaf => exact Canonical.leaf
  | subnets hcl hcr hpe ihl ihr =>
    exact Canonical.subnets ihl ihr (fun hp => hpe ((pureEq_complement _ _).mp hp))

theorem parent_eq (c : Cidr) (hn : c.network < 2 ^ 32) (p2 : Nat) (hp : c.pfx = p2 + 1) :
    Cidr.parent c = some ⟨c.network / 2 ^ (32 - p2) * 2 ^ (32 - p2), p2⟩ := by
  obtain ⟨nn, pp⟩ := c
  dsimp only at hp hn ⊢
  subst hp
  cases p2 with
  | zero =>
    show Cidr.parent ⟨nn, 1⟩ = _
    have h0 : nn / 4294967296 = 0 := Nat.div_eq_of_lt (by norm_num at hn ⊢; exact hn)
    simp [Cidr.parent, Cidr.default, h0]
  | succ p3 =>
    show Cidr.parent ⟨nn, p3 + 2⟩ = _
    simp only [Cidr.parent]
    rw [Nat.shiftRight_eq_div_pow, Nat.shiftLeft_eq]
    have e : p3 + 2 - 1 = p3 + 1 := by omega
    rw [e]

theorem buildUp_inv : ∀ (fuel : Nat) (n : CidrNode),
    n.cidr.pfx < fuel → WF n → Canonical n →
    ((∃ c2, n = CidrNode.leaf c2 true) ∨ (∃ c2 l2 r2, n = CidrNode.subnets c2 l2 r2)) →
    ∃ root, buildUp fuel n = some root ∧ WF root ∧ Canonical root ∧
      root.cidr = Cidr.default := by
  intro fuel
  induction fuel with
  | zero => intro n h _ _ _; omega
  | succ fuel ih =>
    intro n hfu hw hc hshape
    have hvc := hw.valid
    rcases Nat.eq_zero_or_pos n.cidr.pfx with hp0 | hp1
    · have hparent : Cidr.parent n.cidr = none := by
        rcases hcc : n.cidr with ⟨nn, pp⟩
        rw [hcc] at hp0
        dsimp only at hp0
        subst hp0
        rfl
      have hroot : n.cidr = Cidr.default := by
        rcases hcc : n.cidr with ⟨nn, pp⟩
        rw [hcc] at hp0 hvc
        dsimp only at hp0
        subst hp0
        unfold validCidr at hvc
        dsimp only at hvc
        norm_num at hvc
        have : nn = 0 := by omega
        rw [this]
        rfl
      exact ⟨n, by simp only [buildUp]; rw [hparent], hw, hc, hroot⟩
    · obtain ⟨p2, hp2⟩ : ∃ p2, n.cidr.pfx = p2 + 1 := ⟨n.cidr.pfx - 1, by omega⟩
      have hpar := parent_eq n.cidr hvc.1 p2 hp2
      have hple : p2 + 1 ≤ 32 := by rw [← hp2]; exact hvc.2.1
      have hal : n.cidr.network % 2 ^ (32 - (p2 + 1)) = 0 := by rw [← hp2]; exact hvc.2.2
      have hsplit : (2 : Nat) ^ (32 - p2) = 2 ^ (32 - (p2 + 1)) * 2 := by
        rw [← pow_succ]; congr 1; omega
      have hNm : 2 ^ (32 - (p2 + 1)) * (n.cidr.network / 2 ^ (32 - (p2 + 1))) = n.cidr.network := by
        rw [Nat.mul_comm]
        exact Nat.div_mul_cancel (Nat.dvd_of_mod_eq_zero hal)
      have hparN : n.cidr.network / 2 ^ (32 - p2) = n.cidr.network / 2 ^ (32 - (p2 + 1)) / 2 := by
        rw [hsplit, ← Nat.div_div_eq_div_mul]
      have hvpar : validCidr ⟨n.cidr.network / 2 ^ (32 - p2) * 2 ^ (32 - p2), p2⟩ := by
        refine ⟨?_, by dsimp only; omega, ?_⟩
        · dsimp only
          have h1 := Nat.div_mul_le_self n.cidr.network (2 ^ (32 - p2))
          have h2 := hvc.1
          omega
        · dsimp only
          exact Nat.mul_mod_left _ _
      have hppar : p2 < 32 := by omega
      have hfu2 : p2 < fuel := by omega
      rcases Nat.mod_two_eq_zero_or_one (n.cidr.network / 2 ^ (32 - (p2 + 1))) with hbit0 | hbit1
      · -- even: n attaches as the left child
        have hparN2 : n.cidr.network / 2 ^ (32 - p2) * 2 ^ (32 - p2) = n.cidr.network := by
          obtain ⟨m2, hm2⟩ : ∃ m2, n.cidr.network / 2 ^ (32 - (p2 + 1)) = 2 * m2 :=
            ⟨n.cidr.network / 2 ^ (32 - (p2 + 1)) / 2, by omega⟩
          rw [hparN, hm2]
          have e2 : 2 * m2 / 2 = m2 := by omega
          rw [e2, ← hNm, hm2, hsplit]
          ring
        have hstep : buildUp (fuel + 1) n =
            buildUp fuel (.subnets ⟨n.cidr.network, p2⟩ n
              (.leaf ⟨n.cidr.network + 2 ^ (31 - p2), p2 + 1⟩ false)) := by
          simp only [buildUp]
          rw [hpar]
          dsimp only
          rw [hp2, Nat.shiftRight_eq_div_pow, Nat.and_one_is_mod]
          rw [if_pos hbit0]
          rw [right_subnet_eq _ hvpar (by dsimp only; omega)]
          dsimp only
          rw [hparN2]
        rw [hstep]
        apply ih
        · dsimp only [CidrNode.cidr]; omega
        · apply WF.subnets (by rw [← hparN2]; exact hvpar) hppar
          · show n.cidr = ⟨n.cidr.network, p2 + 1⟩
            rw [← hp2]
          · rfl
          · exact hw
          · exact WF.leaf (by
              have := valid_right ⟨n.cidr.network, p2⟩ (by rw [← hparN2]; exact hvpar) hppar
              dsimp only at this
              exact this)
        · apply Canonical.subnets hc Canonical.leaf
          rcases hshape with ⟨c2, rfl⟩ | ⟨c2, l2, r2, rfl⟩
          · simp [pureEq]
          · simp [pureEq]
        · exact Or.inr ⟨_, _, _, rfl⟩
      · -- odd: n attaches as the right child
        have hparN2 : n.cidr.network / 2 ^ (32 - p2) * 2 ^ (32 - p2) + 2 ^ (32 - (p2 + 1)) =
            n.cidr.network := by
          obtain ⟨m2, hm2⟩ : ∃ m2, n.cidr.network / 2 ^ (32 - (p2 + 1)) = 2 * m2 + 1 :=
            ⟨n.cidr.network / 2 ^ (32 - (p2 + 1)) / 2, by omega⟩
          rw [hparN, hm2]
          have e2 : (2 * m2 + 1) / 2 = m2 := by omega
          rw [e2, ← hNm, hm2, hsplit]
          ring
        have he31 : (31 : Nat) - p2 = 32 - (p2 + 1) := by omega
        have hstep : buildUp (fuel + 1) n =
            buildUp fuel (.subnets ⟨n.cidr.network / 2 ^ (32 - p2) * 2 ^ (32 - p2), p2⟩
              (.leaf ⟨n.cidr.network / 2 ^ (32 - p2) * 2 ^ (32 - p2), p2 + 1⟩ false) n) := by
          simp only [buildUp]
          rw [hpar]
          dsimp only
          rw [hp2, Nat.shiftRight_eq_div_pow, Nat.and_one_is_mod]
          rw [if_neg (by omega)]
          rw [left_subnet_eq _ (by dsimp only; omega)]
        rw [hstep]
        apply ih
        · dsimp only [CidrNode.cidr]; omega
        · apply WF.subnets hvpar hppar
          · rfl
          · show n.cidr =
              ⟨n.cidr.network / 2 ^ (32 - p2) * 2 ^ (32 - p2) + 2 ^ (31 - p2), p2 + 1⟩
            rw [he31, hparN2, ← hp2]
          · exact WF.leaf (by
              have := valid_left ⟨n.cidr.network / 2 ^ (32 - p2) * 2 ^ (32 - p2), p2⟩ hvpar hppar
              dsimp only at this
              exact this)
          · exact hw
        · apply Canonical.subnets Canonical.leaf hc
          rcases hshape with ⟨c2, rfl⟩ | ⟨c2, l2, r2, rfl⟩
          · simp [pureEq]
          · simp [pureEq]
        · exact Or.inr ⟨_, _, _, rfl⟩

theorem option_map_mk_eq {o : Option CidrNode} {f : Fcidr} (h : Option.map Fcidr.mk o = some f) :
    ∃ n2, o = some n2 ∧ f = ⟨n2⟩ := by
  cases o with
  | none => cases h
  | some v =>
    refine ⟨v, rfl, ?_⟩
    injection h with h2
    exact h2.symm

theorem subRange_root {x c : Cidr} (hx : validCidr x) (hc : c = Cidr.default) :
    subRange x c := by
  subst hc
  unfold subRange Cidr.default
  dsimp only
  have := valid_upper x hx
  norm_num
  omega

/-- Every reachable `Fcidr` has a well-formed canonical trie whose root
covers `0.0.0.0/0`. -/
theorem reachableInv : ∀ f, Reachable f → WF f.cidr ∧ Canonical f.cidr ∧
    f.cidr.cidr = Cidr.default := by
  intro f h
  induction h with
  | dflt =>
    exact ⟨WF.leaf (by unfold validCidr Cidr.default; norm_num), Canonical.leaf, rfl⟩
  | fromNew hvx hnew =>
    rename_i c f2
    obtain ⟨root, hbu, hf⟩ := option_map_mk_eq hnew
    obtain ⟨root2, hbu2, hw2, hc2, hcid2⟩ := buildUp_inv 33 (.leaf c true)
      (by show c.pfx < 33; have := hvx.2.1; omega) (WF.leaf hvx) Canonical.leaf
      (Or.inl ⟨c, rfl⟩)
    rw [hbu] at hbu2
    injection hbu2 with hroot
    subst hf
    rw [← hroot] at hw2 hc2 hcid2
    exact ⟨hw2, hc2, hcid2⟩
  | fromUnion hr hvx hop ih =>
    rename_i f1 f2 x
    obtain ⟨hw, hcan, hroot⟩ := ih
    obtain ⟨n2, hev, hf2⟩ := option_map_mk_eq hop
    obtain ⟨n3, hev3, hw3, hc3, hcid3, hdj3, hmem3⟩ :=
      bsoMain 33 f1.cidr x .Union hw hcan hvx (Nat.sub_le 33 _)
        (Or.inl (subRange_root hvx hroot))
    rw [hev] at hev3
    injection hev3 with hn23
    subst hf2
    rw [← hn23] at hw3 hc3 hcid3
    exact ⟨hw3, hc3, hcid3.trans hroot⟩
  | fromDifference hr hvx hop ih =>
    rename_i f1 f2 x
    obtain ⟨hw, hcan, hroot⟩ := ih
    obtain ⟨n2, hev, hf2⟩ := option_map_mk_eq hop
    obtain ⟨n3, hev3, hw3, hc3, hcid3, hdj3, hmem3⟩ :=
      bsoMain 33 f1.cidr x .Difference hw hcan hvx (Nat.sub_le 33 _)
        (Or.inl (subRange_root hvx hroot))
    rw [hev] at hev3
    injection hev3 with hn23
    subst hf2
    rw [← hn23] at hw3 hc3 hcid3
    exact ⟨hw3, hc3, hcid3.trans hroot⟩
  | fromComplement hr ih =>
    obtain ⟨hw, hcan, hroot⟩ := ih
    exact ⟨complement_WF _ hw, complement_Canonical _ hcan,
      (complement_cidr _).trans hroot⟩

theorem nodeContains_eq (n : CidrNode) (x : Cidr) :
    nodeContains n x =
      if x.pfx < n.cidr.pfx then false
      else
        match n with
        | .leaf _ false => false
        | .leaf c true => Cidr.contains c x
        | .subnets c l r =>
          if x.network < Cidr.mid c then nodeContains l x else nodeContains r x := by
  cases n with
  | leaf c b => cases b <;> rfl
  | subnets c l r => rfl

/-- Correctness of the superset descent `CidrNode::contains`: on a
well-formed canonical node whose block contains the query, it decides
whether every address of the query is in the set. -/
theorem nodeContains_correct : ∀ (n : CidrNode), WF n → Canonical n →
    ∀ x : Cidr, validCidr x → subRange x n.cidr →
      (nodeContains n x = true ↔ ∀ a, inBlock x a → memAddr n a = true) := by
  intro n
  induction n with
  | leaf c b =>
    intro hw hc x hx hsub
    have hvc : validCidr c := hw.valid
    have hpf : c.pfx ≤ x.pfx := sub_pfx_ge c x hvc hx hsub
    rw [nodeContains_eq]
    rw [if_neg (by simp only [CidrNode.cidr]; omega)]
    cases b with
    | false =>
      simp only
      constructor
      · intro h; cases h
      · intro hall
        have := hall x.network (block_nonempty x)
        simp only [memAddr] at this
        exact this
    | true =>
      simp only
      constructor
      · intro _ a _
        rfl
      · intro _
        exact (contains_iff_subRange c x hvc hx).mpr hsub
  | subnets c l r ihl ihr =>
    intro hw hc x hx hsub
    cases hw with
    | subnets hv hp hlc hrc hwl hwr =>
    cases hc with
    | subnets hcl hcr hpe =>
    have hpf : c.pfx ≤ x.pfx := sub_pfx_ge c x hv hx hsub
    rw [nodeContains_eq]
    rw [if_neg (by simp only [CidrNode.cidr]; omega)]
    simp only
    rw [mid_eq c hv hp]
    by_cases hxc : x = c
    · -- the query equals the whole split block: never fully included
      subst hxc
      have hleft : nodeContains l x = false := by
        rw [nodeContains_eq]
        rw [if_pos (by rw [hlc]; dsimp only; omega)]
      have hright : nodeContains r x = false := by
        rw [nodeContains_eq]
        rw [if_pos (by rw [hrc]; dsimp only; omega)]
      obtain ⟨a0, ha0, hm0⟩ := canonical_subnets_missing (.subnets x l r)
        (WF.subnets hv hp hlc hrc hwl hwr) (Canonical.subnets hcl hcr hpe) x l r rfl
      constructor
      · intro h
        split at h <;> simp_all
      · intro hall
        have := hall a0 ha0
        rw [hm0] at this
        cases this
    · rcases child_cases c x hv hx hp hsub hxc with ⟨hsx, hdx, hltx⟩ | ⟨hsx, hdx, hgex⟩
      · rw [if_pos hltx]
        have hih := ihl hwl hcl x hx (by rw [hlc]; exact hsx)
        rw [hih]
        constructor
        · intro h a ha
          have hal : inBlock ⟨c.network, c.pfx + 1⟩ a := inBlock_of_subRange hsx ha
          rw [mem_subnets_left c l r hv hp a (inBlock_left_sub c hp hal)
            (inBlock_left_lt c hp hal)]
          exact h a ha
        · intro h a ha
          have hal : inBlock ⟨c.network, c.pfx + 1⟩ a := inBlock_of_subRange hsx ha
          have := h a ha
          rw [mem_subnets_left c l r hv hp a (inBlock_left_sub c hp hal)
            (inBlock_left_lt c hp hal)] at this
          exact this
      · rw [if_neg (by omega)]
        have hih := ihr hwr hcr x hx (by rw [hrc]; exact hsx)
        rw [hih]
        constructor
        · intro h a ha
          have har : inBlock ⟨c.network + 2 ^ (31 - c.pfx), c.pfx + 1⟩ a :=
            inBlock_of_subRange hsx ha
          rw [mem_subnets_right c l r hv hp a (inBlock_right_sub c hp har)
            (inBlock_right_ge c har)]
          exact h a ha
        · intro h a ha
          have har : inBlock ⟨c.network + 2 ^ (31 - c.pfx), c.pfx + 1⟩ a :=
            inBlock_of_subRange hsx ha
          have := h a ha
          rw [mem_subnets_right c l r hv hp a (inBlock_right_sub c hp har)
            (inBlock_right_ge c har)] at this
          exact this

theorem runIter_cons : ∀ (n : CidrNode) (rest : List CidrNode),
    runIter (n :: rest) = dfs n ++ runIter rest := by
  intro n
  induction n with
  | leaf c b =>
    intro rest
    cases b <;> simp [runIter, dfs]
  | subnets c l r ihl ihr =>
    intro rest
    rw [show runIter (CidrNode.subnets c l r :: rest) = runIter (l :: r :: rest) from by
      simp [runIter]]
    rw [ihl, ihr]
    simp [dfs]

theorem dfs_subRange : ∀ n, WF n → ∀ c2, c2 ∈ dfs n → validCidr c2 ∧ subRange c2 n.cidr := by
  intro n
  induction n with
  | leaf c b =>
    intro hw c2 hmem
    cases b with
    | false => simp [dfs] at hmem
    | true =>
      simp [dfs] at hmem
      subst hmem
      exact ⟨hw.valid, le_refl _, le_refl _⟩
  | subnets c l r ihl ihr =>
    intro hw c2 hmem
    cases hw with
    | subnets hv hp hlc hrc hwl hwr =>
    simp only [cidr_subnets]
    have hsplit : (2 : Nat) ^ (32 - c.pfx) = 2 ^ (31 - c.pfx) * 2 := by
      rw [← pow_succ]; congr 1; omega
    have e : 32 - (c.pfx + 1) = 31 - c.pfx := by omega
    simp only [dfs, List.mem_append] at hmem
    rcases hmem with h | h
    · obtain ⟨hval, hsub⟩ := ihl hwl c2 h
      rw [hlc] at hsub
      refine ⟨hval, ?_⟩
      unfold subRange at *
      dsimp only at hsub
      rw [e] at hsub
      constructor <;> omega
    · obtain ⟨hval, hsub⟩ := ihr hwr c2 h
      rw [hrc] at hsub
      refine ⟨hval, ?_⟩
      unfold subRange at *
      dsimp only at hsub
      rw [e] at hsub
      constructor <;> omega

theorem memAddr_dfs : ∀ n, WF n → ∀ a, inBlock n.cidr a →
    (memAddr n a = true ↔ ∃ c2 ∈ dfs n, inBlock c2 a) := by
  intro n
  induction n with
  | leaf c b =>
    intro hw a ha
    cases b with
    | false => simp [dfs, memAddr]
    | true =>
      simp only [dfs, memAddr, List.mem_singleton]
      constructor
      · intro _
        exact ⟨c, rfl, ha⟩
      · intro _
        trivial
  | subnets c l r ihl ihr =>
    intro hw a ha
    cases hw with
    | subnets hv hp hlc hrc hwl hwr =>
    simp only [dfs, List.mem_append]
    rcases inBlock_split c hp a ha with ⟨hal, hlt2⟩ | ⟨har, hge2⟩
    · rw [mem_subnets_left c l r hv hp a ha hlt2]
      have hih := ihl hwl a (by rw [hlc]; exact hal)
      rw [hih]
      constructor
      · rintro ⟨c2, hc2, hc2a⟩
        exact ⟨c2, Or.inl hc2, hc2a⟩
      · rintro ⟨c2, hc2 | hc2, hc2a⟩
        · exact ⟨c2, hc2, hc2a⟩
        · exfalso
          obtain ⟨hval, hsub⟩ := dfs_subRange r hwr c2 hc2
          rw [hrc] at hsub
          unfold subRange at hsub
          dsimp only at hsub
          unfold inBlock at hc2a
          omega
    · rw [mem_subnets_right c l r hv hp a ha hge2]
      have hih := ihr hwr a (by rw [hrc]; exact har)
      rw [hih]
      constructor
      · rintro ⟨c2, hc2, hc2a⟩
        exact ⟨c2, Or.inr hc2, hc2a⟩
      · rintro ⟨c2, hc2 | hc2, hc2a⟩
        · exfalso
          obtain ⟨hval, hsub⟩ := dfs_subRange l hwl c2 hc2
          rw [hlc] at hsub
          unfold subRange at hsub
          dsimp only at hsub
          unfold inBlock at hc2a
          have e : 32 - (c.pfx + 1) = 31 - c.pfx := by omega
          rw [e] at hsub
          have h1 := Nat.one_le_two_pow (n := 32 - c2.pfx)
          omega
        · exact ⟨c2, hc2, hc2a⟩

theorem dfs_sorted : ∀ n, WF n →
    (dfs n).Pairwise (fun c2 d => c2.network + 2 ^ (32 - c2.pfx) ≤ d.network) := by
  intro n
  induction n with
  | leaf c b =>
    intro _
    cases b <;> simp [dfs]
  | subnets c l r ihl ihr =>
    intro hw
    cases hw with
    | subnets hv hp hlc hrc hwl hwr =>
    simp only [dfs]
    rw [List.pairwise_append]
    refine ⟨ihl hwl, ihr hwr, ?_⟩
    intro c2 hc2 d hd
    obtain ⟨hv2, hs2⟩ := dfs_subRange l hwl c2 hc2
    obtain ⟨hv3, hs3⟩ := dfs_subRange r hwr d hd
    rw [hlc] at hs2
    rw [hrc] at hs3
    unfold subRange at hs2 hs3
    dsimp only at hs2 hs3
    have e : 32 - (c.pfx + 1) = 31 - c.pfx := by omega
    rw [e] at hs2 hs3
    omega

/-! ### The CLI subcommand surface (src/main.rs) -/

/-- The clap subcommand enum `FcidrCommand` of src/main.rs: the CLI's only
subcommands are `Complement`, `Difference` and `Union`. -/
inductive FcidrCommand where
  | Complement
  | Difference
  | Union
deriving DecidableEq

/-- The invocation names of each subcommand: the clap-derived kebab-case
name followed by the `visible_alias` attributes declared in src/main.rs. -/
def fcidrCommandNames : FcidrCommand → List String
  | .Complement => ["complement", "!", "not"]
  | .Difference => ["difference", "-", "exclude", "minus"]
  | .Union => ["union", "+", "include", "plus"]

/-- Dispatch of a subcommand token by the CLI: the first enum variant one of
whose names matches, if any. -/
def parseFcidrCommand (s : String) : Option FcidrCommand :=
  if s ∈ fcidrCommandNames .Complement then some .Complement
  else if s ∈ fcidrCommandNames .Difference then some .Difference
  else if s ∈ fcidrCommandNames .Union then some .Union
  else none

/-! ### String parsing (src/cidr.rs `FromStr` and its collaborators) -/

/-- `str::split_once('/')`: split at the first `'/'`, if any. -/
def splitOnceSlash : List Char → Option (List Char × List Char)
  | [] => none
  | ch :: rest =>
    if ch = '/' then some ([], rest)
    else
      match splitOnceSlash rest with
      | none => none
      | some (a, b) => some (ch :: a, b)

/-- A decimal digit's value. -/
def decDigit (ch : Char) : Option Nat :=
  if '0' ≤ ch ∧ ch ≤ '9' then some (ch.toNat - 48) else none

/-- Value of a digit string, `none` on any non-digit. -/
def digitsValAux : Nat → List Char → Option Nat
  | acc, [] => some acc
  | acc, ch :: rest =>
    match decDigit ch with
    | none => none
    | some d => digitsValAux (acc * 10 + d) rest

/-- Value of a non-empty digit string, `none` otherwise. -/
def digitsVal : List Char → Option Nat
  | [] => none
  | cs => digitsValAux 0 cs

/-- Modelled from the spec: Rust's `u8::from_str` used for the prefix part
(an external std collaborator).  An optional leading `'+'`, then a
non-empty decimal numeral; any value above `u8::MAX` is an overflow error
(`Parse` at the caller, 6.1 "Invalid octet or prefix → Parse error from the
underlying numeric parser"). -/
def parseU8 (cs : List Char) : Option Nat :=
  let cs2 :=
    match cs with
    | '+' :: rest => rest
    | _ => cs
  match digitsVal cs2 with
  | some v => if v < 256 then some v else none
  | none => none

/-- Modelled from the spec: one octet of the dotted-quad address grammar
(6.1): decimal in `[0, 255]`, leading zeros tolerated by the address
parser. -/
def parseOctet (cs : List Char) : Option Nat :=
  match digitsVal cs with
  | some v => if v < 256 then some v else none
  | none => none

/-- Split on `'.'` (no separator collapsing). -/
def splitDots : List Char → List (List Char)
  | [] => [[]]
  | ch :: rest =>
    if ch = '.' then [] :: splitDots rest
    else
      match splitDots rest with
      | [] => [[ch]]
      | g :: gs => (ch :: g) :: gs

/-- Modelled from the spec: `Ipv4Addr::from_str` (an external std
collaborator), per the 6.1 grammar `OCTET "." OCTET "." OCTET "." OCTET`,
returning the 32-bit value in network byte order. -/
def parseIpv4 (cs : List Char) : Option Nat :=
  match splitDots cs with
  | [a, b, c, d] =>
    match parseOctet a, parseOctet b, parseOctet c, parseOctet d with
    | some x, some y, some z, some w => some (x * 2 ^ 24 + y * 2 ^ 16 + z * 2 ^ 8 + w)
    | _, _, _, _ => none
  | _ => none

/-- `impl FromStr for Cidr` (src/cidr.rs): split at `'/'` (missing
delimiter is a `Parse` error), parse the address and the u8 prefix (their
errors map to `Parse`), then delegate to `Cidr::new`. -/
def cidrFromStr (s : String) : Except Error Cidr :=
  match splitOnceSlash s.toList with
  | none => Except.error (Error.Parse "missing network prefix delimiter")
  | some (net, pfxPart) =>
    match parseIpv4 net with
    | none => Except.error (Error.Parse "invalid IPv4 address syntax")
    | some n =>
      match parseU8 pfxPart with
      | none => Except.error (Error.Parse "invalid digit found in string or out of range")
      | some p => Cidr.new n p

/-- The result is an `InvalidPrefix` error (`InvalidPfx` here). -/
def isInvalidPfxErr : Except Error Cidr → Bool
  | .error (.InvalidPfx _) => true
  | _ => false

/-- The result is an `InvalidNetwork` error. -/
def isInvalidNetworkErr : Except Error Cidr → Bool
  | .error (.InvalidNetwork _) => true
  | _ => false

/-- The result is a `Parse` error. -/
def isParseErr : Except Error Cidr → Bool
  | .error (.Parse _) => true
  | _ => false

/-! ### Claim theorems -/

theorem if_bool_or (P : Prop) [Decidable P] (b : Bool) :
    ((if P then true else b) = true ↔ (b = true ∨ P)) := by
  by_cases h : P <;> simp [h]

theorem if_bool_and (P : Prop) [Decidable P] (b : Bool) :
    ((if P then false else b) = true ↔ (b = true ∧ ¬ P)) := by
  by_cases h : P <;> simp [h]

theorem inBlock_default (a : Nat) (ha : a < 2 ^ 32) : inBlock Cidr.default a := by
  unfold inBlock Cidr.default
  dsimp only
  norm_num
  exact ha

/-- Claim C1: for every reachable `Fcidr` and valid `Cidr` argument, union
adds exactly the addresses of the argument to the member set and difference
removes exactly them; both operations are the one shared recursive
procedure `binary_set_operation` applied with the respective target label. -/
theorem claim_C1_union_difference_membership :
    (∀ (f : Fcidr) (c : Cidr),
      Fcidr.union f c = Option.map Fcidr.mk (binarySetOperation 33 f.cidr c .Union) ∧
      Fcidr.difference f c =
        Option.map Fcidr.mk (binarySetOperation 33 f.cidr c .Difference)) ∧
    (∀ (f : Fcidr) (c : Cidr), Reachable f → validCidr c →
      (∃ fu, Fcidr.union f c = some fu ∧
        ∀ a, a < 2 ^ 32 →
          (memAddr fu.cidr a = true ↔ (memAddr f.cidr a = true ∨ inBlock c a))) ∧
      (∃ fd, Fcidr.difference f c = some fd ∧
        ∀ a, a < 2 ^ 32 →
          (memAddr fd.cidr a = true ↔ (memAddr f.cidr a = true ∧ ¬ inBlock c a)))) := by
  refine ⟨fun f c => ⟨rfl, rfl⟩, ?_⟩
  intro f c hr hv
  obtain ⟨hw, hcan, hroot⟩ := reachableInv f hr
  constructor
  · obtain ⟨n2, hev, _, _, _, _, hmem⟩ := bsoMain 33 f.cidr c .Union hw hcan hv
      (Nat.sub_le _ _) (Or.inl (subRange_root hv hroot))
    refine ⟨⟨n2⟩, by unfold Fcidr.union; rw [hev]; rfl, ?_⟩
    intro a ha
    have hblk : inBlock f.cidr.cidr a := by rw [hroot]; exact inBlock_default a ha
    have hme := hmem a hblk
    have hgoal : memAddr (Fcidr.mk n2).cidr a = memAddr n2 a := rfl
    rw [hgoal, hme]
    exact if_bool_or _ _
  · obtain ⟨n2, hev, _, _, _, _, hmem⟩ := bsoMain 33 f.cidr c .Difference hw hcan hv
      (Nat.sub_le _ _) (Or.inl (subRange_root hv hroot))
    refine ⟨⟨n2⟩, by unfold Fcidr.difference; rw [hev]; rfl, ?_⟩
    intro a ha
    have hblk : inBlock f.cidr.cidr a := by rw [hroot]; exact inBlock_default a ha
    have hme := hmem a hblk
    have hgoal : memAddr (Fcidr.mk n2).cidr a = memAddr n2 a := rfl
    rw [hgoal, hme]
    exact if_bool_and _ _

theorem claim_C1_witness :
    validCidr ⟨167772160, 8⟩ ∧
    ((∃ fu, Fcidr.union Fcidr.default ⟨167772160, 8⟩ = some fu ∧
        ∀ a, a < 2 ^ 32 →
          (memAddr fu.cidr a = true ↔
            (memAddr Fcidr.default.cidr a = true ∨ inBlock ⟨167772160, 8⟩ a))) ∧
      (∃ fd, Fcidr.difference Fcidr.default ⟨167772160, 8⟩ = some fd ∧
        ∀ a, a < 2 ^ 32 →
          (memAddr fd.cidr a = true ↔
            (memAddr Fcidr.default.cidr a = true ∧ ¬ inBlock ⟨167772160, 8⟩ a)))) :=
  ⟨by decide,
    claim_C1_union_difference_membership.2 Fcidr.default ⟨167772160, 8⟩
      Reachable.dflt (by decide)⟩

/-- Claim C2: for every reachable `Fcidr` and valid `Cidr`, `is_superset`
returns true exactly when every address of the argument is a member of the
set; the one-child descent of `CidrNode::contains` decides this predicate. -/
theorem claim_C2_is_superset (f : Fcidr) (c : Cidr) (hr : Reachable f) (hv : validCidr c) :
    Fcidr.is_superset f c = true ↔ ∀ a, inBlock c a → memAddr f.cidr a = true := by
  obtain ⟨hw, hcan, hroot⟩ := reachableInv f hr
  exact nodeContains_correct f.cidr hw hcan c hv (subRange_root hv hroot)

theorem claim_C2_witness :
    validCidr ⟨0, 32⟩ ∧
    (Fcidr.is_superset Fcidr.default ⟨0, 32⟩ = true ↔
      ∀ a, inBlock ⟨0, 32⟩ a → memAddr Fcidr.default.cidr a = true) :=
  ⟨by decide, claim_C2_is_superset Fcidr.default ⟨0, 32⟩ Reachable.dflt (by decide)⟩

/-- No `Subnets` node sits at prefix 32 (the claim's "every node at prefix
32 is a pure leaf"). -/
def NoSplit32 : CidrNode → Prop
  | .leaf _ _ => True
  | .subnets c l r => c.pfx ≠ 32 ∧ NoSplit32 l ∧ NoSplit32 r

theorem WF_NoSplit32 : ∀ n, WF n → NoSplit32 n := by
  intro n h
  induction h with
  | leaf _ => trivial
  | subnets hv hp hlc hrc hwl hwr ihl ihr => exact ⟨by omega, ihl, ihr⟩

/-- The invariant asserted by claim C3: canonical labels (no `Subnets` node
with two identical pure children), a root covering `0.0.0.0/0`, and no
`Subnets` node at prefix 32. -/
def ClaimInvariant (f : Fcidr) : Prop :=
  Canonical f.cidr ∧ f.cidr.cidr = Cidr.default ∧ NoSplit32 f.cidr

theorem reachable_ClaimInvariant (f : Fcidr) (hr : Reachable f) : ClaimInvariant f := by
  obtain ⟨hw, hcan, hroot⟩ := reachableInv f hr
  exact ⟨hcan, hroot, WF_NoSplit32 _ hw⟩

/-- Claim C3: the canonicalization invariant (together with the root block
and the prefix-32 leaf property) holds for `default` and `new`, and is
preserved by `union`, `difference` and `complement` on valid arguments. -/
theorem claim_C3_canonicalization :
    ClaimInvariant Fcidr.default ∧
    (∀ c f, validCidr c → Fcidr.new c = some f → ClaimInvariant f) ∧
    (∀ f c f2, Reachable f → validCidr c → Fcidr.union f c = some f2 →
      ClaimInvariant f2) ∧
    (∀ f c f2, Reachable f → validCidr c → Fcidr.difference f c = some f2 →
      ClaimInvariant f2) ∧
    (∀ f, Reachable f → ClaimInvariant (Fcidr.complement f)) := by
  refine ⟨reachable_ClaimInvariant _ Reachable.dflt,
    fun c f hv h => reachable_ClaimInvariant _ (Reachable.fromNew hv h),
    fun f c f2 hr hv h => reachable_ClaimInvariant _ (Reachable.fromUnion hr hv h),
    fun f c f2 hr hv h => reachable_ClaimInvariant _ (Reachable.fromDifference hr hv h),
    fun f hr => reachable_ClaimInvariant _ (Reachable.fromComplement hr)⟩

theorem claim_C3_witness :
    validCidr ⟨0, 0⟩ ∧
    Fcidr.union Fcidr.default ⟨0, 0⟩ = some ⟨.leaf ⟨0, 0⟩ true⟩ ∧
    ClaimInvariant ⟨.leaf ⟨0, 0⟩ true⟩ :=
  ⟨by decide, by decide,
    claim_C3_canonicalization.2.2.1 Fcidr.default ⟨0, 0⟩ ⟨.leaf ⟨0, 0⟩ true⟩
      Reachable.dflt (by decide) (by decide)⟩

/-- Claim C4: on every reachable `Fcidr`, an address is a member (the trie
walk reaches an `Included` label) exactly when some CIDR emitted by the
iterator contains it. -/
theorem claim_C4_cover_completeness (f : Fcidr) (hr : Reachable f) :
    ∀ a, a < 2 ^ 32 →
      (memAddr f.cidr a = true ↔ ∃ c ∈ Fcidr.iterList f, inBlock c a) := by
  obtain ⟨hw, hcan, hroot⟩ := reachableInv f hr
  intro a ha
  have hil : Fcidr.iterList f = dfs f.cidr := by
    unfold Fcidr.iterList
    rw [runIter_cons]
    simp [runIter]
  rw [hil]
  exact memAddr_dfs f.cidr hw a (by rw [hroot]; exact inBlock_default a ha)

theorem claim_C4_witness :
    memAddr Fcidr.default.cidr 5 = true ↔
      ∃ c ∈ Fcidr.iterList Fcidr.default, inBlock c 5 :=
  claim_C4_cover_completeness Fcidr.default Reachable.dflt 5 (by decide)

/-- Claim C5: on every reachable `Fcidr` the iterator's output is strictly
ascending by first address and pairwise disjoint (the traversal is a total
function into a finite list by construction). -/
theorem claim_C5_ordering_disjointness (f : Fcidr) (hr : Reachable f) :
    (Fcidr.iterList f).Pairwise (fun c d => Cidr.first c < Cidr.first d) ∧
    (Fcidr.iterList f).Pairwise (fun c d => ∀ a, ¬ (inBlock c a ∧ inBlock d a)) := by
  obtain ⟨hw, hcan, hroot⟩ := reachableInv f hr
  have hil : Fcidr.iterList f = dfs f.cidr := by
    unfold Fcidr.iterList
    rw [runIter_cons]
    simp [runIter]
  rw [hil]
  have hsorted := dfs_sorted f.cidr hw
  constructor
  · refine hsorted.imp ?_
    intro c d h
    have := Nat.one_le_two_pow (n := 32 - c.pfx)
    unfold Cidr.first
    omega
  · refine hsorted.imp ?_
    intro c d h a ⟨hac, had⟩
    unfold inBlock at hac had
    omega

theorem claim_C5_witness :
    (Fcidr.iterList Fcidr.default).Pairwise (fun c d => Cidr.first c < Cidr.first d) ∧
    (Fcidr.iterList Fcidr.default).Pairwise
      (fun c d => ∀ a, ¬ (inBlock c a ∧ inBlock d a)) :=
  claim_C5_ordering_disjointness Fcidr.default Reachable.dflt

/-- Claim C6: no core operation panics on valid inputs: `union`,
`difference` and `Fcidr::new` always return a value on reachable states
(their `left_subnet`/`right_subnet` unwraps never see a `/32` block), and
the `Ipv4Addr` conversion's `expect` never fires since `Cidr::new(a, 32)`
succeeds for every address. -/
theorem claim_C6_no_panic :
    (∀ f c, Reachable f → validCidr c →
      (Fcidr.union f c).isSome = true ∧ (Fcidr.difference f c).isSome = true) ∧
    (∀ c, validCidr c → (Fcidr.new c).isSome = true) ∧
    (∀ a, a < 2 ^ 32 → Cidr.new a 32 = Except.ok ⟨a, 32⟩ ∧
      Cidr.fromIpv4 a = some ⟨a, 32⟩) := by
  refine ⟨?_, ?_, ?_⟩
  · intro f c hr hv
    obtain ⟨hw, hcan, hroot⟩ := reachableInv f hr
    obtain ⟨n2, hev, _⟩ := bsoMain 33 f.cidr c .Union hw hcan hv
      (Nat.sub_le _ _) (Or.inl (subRange_root hv hroot))
    obtain ⟨n3, hev3, _⟩ := bsoMain 33 f.cidr c .Difference hw hcan hv
      (Nat.sub_le _ _) (Or.inl (subRange_root hv hroot))
    constructor
    · unfold Fcidr.union
      rw [hev]
      rfl
    · unfold Fcidr.difference
      rw [hev3]
      rfl
  · intro c hv
    obtain ⟨root, hbu, _⟩ := buildUp_inv 33 (.leaf c true)
      (by show c.pfx < 33; have := hv.2.1; omega) (WF.leaf hv) Canonical.leaf
      (Or.inl ⟨c, rfl⟩)
    unfold Fcidr.new
    rw [hbu]
    rfl
  · intro a ha
    have hok : Cidr.new a 32 = Except.ok ⟨a, 32⟩ := by
      unfold Cidr.new invalidNetworkCheck octetBad
      norm_num
    exact ⟨hok, by unfold Cidr.fromIpv4; rw [hok]; rfl⟩

theorem claim_C6_witness :
    ((Fcidr.union Fcidr.default ⟨167772160, 8⟩).isSome = true ∧
      (Fcidr.difference Fcidr.default ⟨167772160, 8⟩).isSome = true) ∧
    (Fcidr.new ⟨167772160, 8⟩).isSome = true ∧
    (Cidr.new 42 32 = Except.ok ⟨42, 32⟩ ∧ Cidr.fromIpv4 42 = some ⟨42, 32⟩) :=
  ⟨claim_C6_no_panic.1 Fcidr.default ⟨167772160, 8⟩ Reachable.dflt (by decide),
    claim_C6_no_panic.2.1 ⟨167772160, 8⟩ (by decide),
    claim_C6_no_panic.2.2 42 (by decide)⟩

/-- Claim C7 (code bug): the CLI's subcommand enum in src/main.rs has only
`complement`, `difference` and `union`; no variant or alias matches
`superset` or `>`, although src/tests/cli.rs exercises that subcommand.
This theorem evaluates the command table at the failing input. -/
theorem claim_C7_no_superset_subcommand :
    parseFcidrCommand "superset" = none ∧ parseFcidrCommand ">" = none ∧
    (∀ cmd : FcidrCommand,
      ¬ "superset" ∈ fcidrCommandNames cmd ∧ ¬ ">" ∈ fcidrCommandNames cmd) := by
  refine ⟨by decide, by decide, ?_⟩
  intro cmd
  cases cmd <;> exact ⟨by decide, by decide⟩

/-- Claim C8: `Cidr::new` returns `InvalidPrefix` exactly for prefixes
above 32 (taking priority), `InvalidNetwork` exactly when a host bit below
position `32 - prefix` is set, and otherwise `Ok` with the given fields. -/
theorem claim_C8_cidr_new_errors (n p : Nat) (_hn : n < 2 ^ 32) (hp : p < 256) :
    (isInvalidPfxErr (Cidr.new n p) = true ↔ 32 < p) ∧
    (p ≤ 32 → (isInvalidNetworkErr (Cidr.new n p) = true ↔ n % 2 ^ (32 - p) ≠ 0)) ∧
    (p ≤ 32 → n % 2 ^ (32 - p) = 0 → Cidr.new n p = Except.ok ⟨n, p⟩) := by
  by_cases h32 : 32 < p
  · have hnew : Cidr.new n p =
        Except.error (Error.InvalidPfx "network prefix must be 32 or less") := by
      unfold Cidr.new
      rw [if_pos h32]
    rw [hnew]
    refine ⟨by simp [isInvalidPfxErr, h32], fun hle => absurd h32 (by omega),
      fun hle => absurd h32 (by omega)⟩
  · have hle : p ≤ 32 := by omega
    have hiff := invalidNetworkCheck_iff n p hle
    by_cases hbad : invalidNetworkCheck n p = true
    · have hnew : Cidr.new n p = Except.error
          (Error.InvalidNetwork "network address must be clear after the first bits") := by
        unfold Cidr.new
        rw [if_neg h32, if_pos hbad]
      rw [hnew]
      refine ⟨by simp [isInvalidPfxErr, h32], fun _ => ?_, fun _ hal => ?_⟩
      · simp only [isInvalidNetworkErr, true_iff]
        intro hmod
        rw [← hiff] at hmod
        rw [hbad] at hmod
        cases hmod
      · rw [← hiff] at hal
        rw [hbad] at hal
        cases hal
    · have hfalse : invalidNetworkCheck n p = false := by
        revert hbad
        cases invalidNetworkCheck n p <;> simp
      have hnew : Cidr.new n p = Except.ok ⟨n, p⟩ := by
        unfold Cidr.new
        rw [if_neg h32, if_neg (by rw [hfalse]; simp)]
      rw [hnew]
      refine ⟨by simp [isInvalidPfxErr, h32], fun _ => ?_, fun _ _ => rfl⟩
      simp only [isInvalidNetworkErr]
      constructor
      · intro h
        cases h
      · intro hne
        exact absurd (hiff.mp hfalse) hne
  
theorem claim_C8_witness :
    ((167772160 : Nat) < 2 ^ 32 ∧ (8 : Nat) < 256) ∧
    ((isInvalidPfxErr (Cidr.new 167772160 8) = true ↔ 32 < 8) ∧
      (8 ≤ 32 → (isInvalidNetworkErr (Cidr.new 167772160 8) = true ↔
        167772160 % 2 ^ (32 - 8) ≠ 0)) ∧
      (8 ≤ 32 → 167772160 % 2 ^ (32 - 8) = 0 →
        Cidr.new 167772160 8 = Except.ok ⟨167772160, 8⟩)) :=
  ⟨⟨by decide, by decide⟩, claim_C8_cidr_new_errors 167772160 8 (by decide) (by decide)⟩

/-- Claim C9 counterexample: with the operand `0.0.0.0/0` strictly
containing the node's block `0.0.0.0/1`, `binary_set_operation` leaves the
node unchanged instead of setting its label to the target. -/
theorem claim_C9_counterexample :
    Cidr.contains ⟨0, 0⟩ ⟨0, 1⟩ = true ∧ (⟨0, 0⟩ : Cidr) ≠ ⟨0, 1⟩ ∧
    binarySetOperation 33 (.leaf ⟨0, 1⟩ false) ⟨0, 0⟩ .Union =
      some (.leaf ⟨0, 1⟩ false) ∧
    (CidrNode.leaf ⟨0, 1⟩ false : CidrNode) ≠
      .leaf ⟨0, 1⟩ BinarySetOperator.Union.intoInclusion := by
  refine ⟨by decide, by decide, by decide, by decide⟩

/-- Claim C9 as amended: when the operand strictly contains the visited
node's block (a case never reached from the root, where descent only
enters nodes whose block contains the operand), the shared procedure
returns the node unchanged. -/
theorem claim_C9_strict_container_noop (n : CidrNode) (x : Cidr)
    (op : BinarySetOperator) (fuel : Nat) (hx : validCidr x) (hc : validCidr n.cidr)
    (hcont : Cidr.contains x n.cidr = true) (hne : x ≠ n.cidr) :
    binarySetOperation (fuel + 1) n x op = some n := by
  have hsub : subRange n.cidr x := (contains_iff_subRange x n.cidr hx hc).mp hcont
  have hne2 : ¬ n.cidr = x := fun h => hne h.symm
  have hnc : ¬ Cidr.contains n.cidr x = true := by
    intro hcc
    have hsub2 : subRange x n.cidr := (contains_iff_subRange n.cidr x hc hx).mp hcc
    have hp1 : n.cidr.pfx ≤ x.pfx := sub_pfx_ge n.cidr x hc hx hsub2
    have hp2 : x.pfx ≤ n.cidr.pfx := sub_pfx_ge x n.cidr hx hc hsub
    exact hne (sub_eq_of_pfx_eq n.cidr x (by omega) hsub2)
  simp only [binarySetOperation]
  rw [if_neg hne2, if_neg (fun h => hnc h.1)]

theorem claim_C9_witness :
    binarySetOperation (32 + 1) (.leaf ⟨2147483648, 1⟩ false) ⟨0, 0⟩ .Difference =
      some (.leaf ⟨2147483648, 1⟩ false) :=
  claim_C9_strict_container_noop (.leaf ⟨2147483648, 1⟩ false) ⟨0, 0⟩ .Difference 32
    (by decide) (by decide) (by decide) (by decide)

/-- Claim C10 counterexample: `"0.0.0.0/256"` has a valid dotted-quad part
and a decimal prefix numeral greater than 32, yet `from_str` returns a
`Parse` error (the u8 prefix parse overflows), not `InvalidPrefix`. -/
theorem claim_C10_counterexample :
    parseIpv4 ("0.0.0.0".toList) = some 0 ∧
    digitsVal ("256".toList) = some 256 ∧ 32 < 256 ∧
    isParseErr (cidrFromStr "0.0.0.0/256") = true ∧
    isInvalidPfxErr (cidrFromStr "0.0.0.0/256") = false := by
  refine ⟨by decide, by decide, by decide, by decide, by decide⟩

/-- Claim C10 as amended: for a string splitting at `'/'` into a valid
dotted-quad and a prefix part that the u8 parser accepts with a value
greater than 32 (hence at most 255), `from_str` returns `InvalidPrefix`;
numerals above 255 instead fail the u8 parse and give a `Parse` error. -/
theorem claim_C10_from_str_invalid_pfx (s : String) (net pfxPart : List Char)
    (n p : Nat) (hsplit : splitOnceSlash s.toList = some (net, pfxPart))
    (hnet : parseIpv4 net = some n) (hpfx : parseU8 pfxPart = some p) (hp : 32 < p) :
    isInvalidPfxErr (cidrFromStr s) = true := by
  unfold cidrFromStr
  rw [hsplit]
  simp only
  rw [hnet]
  simp only
  rw [hpfx]
  simp only
  unfold Cidr.new
  rw [if_pos hp]
  rfl

theorem claim_C10_witness :
    splitOnceSlash ("0.0.0.0/33".toList) = some ("0.0.0.0".toList, "33".toList) ∧
    parseIpv4 ("0.0.0.0".toList) = some 0 ∧
    parseU8 ("33".toList) = some 33 ∧ 32 < 33 ∧
    isInvalidPfxErr (cidrFromStr "0.0.0.0/33") = true :=
  ⟨by decide, by decide, by decide, by decide,
    claim_C10_from_str_invalid_pfx "0.0.0.0/33" ("0.0.0.0".toList) ("33".toList) 0 33
      (by decide) (by decide) (by decide) (by decide)⟩
